import Mathlib

/-!
Gauss-Newton pose estimation (`pose-gauss-newton-visp.cpp`).

A shallow embedding of `pose_gauss_newton` and a verification of its
specification.

Modelling conventions.

* A C++ `double` is an exact rational number: rounding, overflow and the
  non-finite values of IEEE arithmetic are not represented.  In particular
  `a / 0` is `0` here, whereas the machine yields an infinity or a NaN, so
  statements about values, and about the stopping test that compares them,
  are made under `Z ≠ 0` (`DepthsOk`).
* The type `Dbl` adds the infinities and the NaN to the rationals.  The loop
  condition is the IEEE comparison (`loopCondDbl`), which the loop applies
  to its two rational norms.  The norm of the first iteration is computed a
  second time on IEEE values (`firstNormDbl`): it is the rational norm where
  the depths are non-zero, and where it is a NaN the loop condition is false,
  which ends the loop.
* A `vpColVector` is a list of scalars and a `vpMatrix` a list of rows.  An
  element access written in the source (`xn[i*2] = ...`, `x[i][0]`,
  `J[i*2][0] = ...`) is checked: an index outside the buffer, undefined
  behaviour in C++, makes the model stop with a fault.
* The pseudo-inverse and the exponential map are external collaborators and
  are parameters of the model.
* The `do ... while` loop may not terminate; the model runs it with a bound
  on the number of iterations.
-/

namespace PoseGaussNewton

/-- A column vector of doubles (`vpColVector`). -/
abbrev vpColVector := List ℚ

/-- A dense matrix of doubles (`vpMatrix`), stored row by row. -/
abbrev vpMatrix := List (List ℚ)

/-- Modelled from the spec: the constructor `vpColVector v(n)` of the
linear-algebra collaborator, `n` entries, all zero. -/
def vpColVector.zeros (n : Nat) : vpColVector := List.replicate n 0

/-- Modelled from the spec: the constructor `vpMatrix M(r, c)` of the
linear-algebra collaborator, `r` rows of `c` zero entries. -/
def vpMatrix.zeros (r c : Nat) : vpMatrix := List.replicate r (List.replicate c 0)

/-- The assignment `v[i] = a`; `none` when `i` is outside the vector. -/
def vpColVector.writeAt (v : vpColVector) (i : Nat) (a : ℚ) : Option vpColVector :=
  if i < v.length then some (v.set i a) else none

/-- The assignment `M[r][c] = a`; `none` when the entry is outside the matrix. -/
def vpMatrix.writeAt (M : vpMatrix) (r c : Nat) (a : ℚ) : Option vpMatrix :=
  match M[r]? with
  | none => none
  | some row => if c < row.length then some (M.set r (row.set c a)) else none

/-- Modelled from the spec: the difference `a - b` of two column vectors of
the linear-algebra collaborator, entry by entry. -/
def vpColVector.sub (a b : vpColVector) : vpColVector := List.zipWith (fun p q => p - q) a b

/-- Modelled from the spec: `sumSquare` of the linear-algebra collaborator,
the sum of the squares of the entries. -/
def vpColVector.sumSquare (v : vpColVector) : ℚ := (v.map (fun a => a * a)).sum

/-- Modelled from the spec: the scalar product of a matrix row with a column
vector. -/
def dotProduct (row v : List ℚ) : ℚ := (List.zipWith (fun p q => p * q) row v).sum

/-- Modelled from the spec: the product `k * M` of a scalar and a matrix. -/
def vpMatrix.scale (k : ℚ) (M : vpMatrix) : vpMatrix := M.map (fun row => row.map (fun a => k * a))

/-- Modelled from the spec: the product `M * v` of a matrix and a column
vector, one scalar product per row of `M`. -/
def vpMatrix.mulVec (M : vpMatrix) (v : vpColVector) : vpColVector := M.map (fun row => dotProduct row v)

/-- A rigid transform (`vpHomogeneousMatrix`): the 4×4 matrix whose upper
left block is `R`, whose last column is `t` and whose last row is
`(0, 0, 0, 1)`. -/
structure vpHomogeneousMatrix where
  R : Matrix (Fin 3) (Fin 3) ℚ
  t : Fin 3 → ℚ

namespace vpHomogeneousMatrix

/-- The identity transform. -/
def identity : vpHomogeneousMatrix := ⟨1, 0⟩

/-- The 4×4 matrix of a transform. -/
def toMatrix (M : vpHomogeneousMatrix) : Matrix (Fin 4) (Fin 4) ℚ :=
  !![M.R 0 0, M.R 0 1, M.R 0 2, M.t 0;
     M.R 1 0, M.R 1 1, M.R 1 2, M.t 1;
     M.R 2 0, M.R 2 1, M.R 2 2, M.t 2;
     0, 0, 0, 1]

/-- Modelled from the spec: composition `A * B` of two rigid transforms,
rotation `A.R * B.R` and translation `A.R * B.t + A.t`. -/
def mul (A B : vpHomogeneousMatrix) : vpHomogeneousMatrix :=
  ⟨A.R * B.R, A.R.mulVec B.t + A.t⟩

/-- Modelled from the spec: the inverse of a rigid transform, rotation `Rᵀ`
and translation `-Rᵀ t`. -/
def inverse (M : vpHomogeneousMatrix) : vpHomogeneousMatrix :=
  ⟨M.R.transpose, -(M.R.transpose.mulVec M.t)⟩

/-- Modelled from the spec: application `M * v` of a transform to a
homogeneous point; the collaborator accepts vectors of four entries only
(`none` otherwise). -/
def mulColVector (M : vpHomogeneousMatrix) (v : vpColVector) : Option vpColVector :=
  match v with
  | [a, b, c, d] =>
    some [M.R 0 0 * a + M.R 0 1 * b + M.R 0 2 * c + M.t 0 * d,
          M.R 1 0 * a + M.R 1 1 * b + M.R 1 2 * c + M.t 1 * d,
          M.R 2 0 * a + M.R 2 1 * b + M.R 2 2 * c + M.t 2 * d,
          0 * a + 0 * b + 0 * c + 1 * d]
  | _ => none

end vpHomogeneousMatrix

/-- The external collaborators of the estimator: `J.pseudoInverse(Jp)` and
`vpExponentialMap::direct`. -/
structure Collaborators where
  pseudoInverse : vpMatrix → vpMatrix
  direct : vpColVector → vpHomogeneousMatrix

/-- The gain `lambda = 0.25`. -/
def lambda : ℚ := 1 / 4

/-- The marshaling loop `for (i = 0; i < x.size(); i++)`, from index `i` on:
`xn[i*2] = x[i][0]; xn[i*2+1] = x[i][1]`. -/
def marshalLoop : List vpColVector → Nat → vpColVector → Option vpColVector
  | [], _, xn => some xn
  | xi :: rest, i, xn => do
    let a ← xi[0]?
    let xn ← xn.writeAt (i * 2) a
    let b ← xi[1]?
    let xn ← xn.writeAt (i * 2 + 1) b
    marshalLoop rest (i + 1) xn

/-- The block "Update x(q)" of the point loop: `xq[i*2] = Xi / Zi;
xq[i*2+1] = Yi / Zi`. -/
def updateXq (i : Nat) (xq : vpColVector) (Xi Yi Zi : ℚ) : Option vpColVector := do
  let xq ← xq.writeAt (i * 2) (Xi / Zi)
  let xq ← xq.writeAt (i * 2 + 1) (Yi / Zi)
  some xq

/-- The block "Update J using equation (11)", first half: the six
assignments to row `i*2` of `J`. -/
def updateJx (i : Nat) (J : vpMatrix) (Zi xi yi : ℚ) : Option vpMatrix := do
  let J ← J.writeAt (i * 2) 0 (-1 / Zi)
  let J ← J.writeAt (i * 2) 1 0
  let J ← J.writeAt (i * 2) 2 (xi / Zi)
  let J ← J.writeAt (i * 2) 3 (xi * yi)
  let J ← J.writeAt (i * 2) 4 (-(1 + xi * xi))
  let J ← J.writeAt (i * 2) 5 yi
  some J

/-- The block "Update J using equation (11)", second half: the six
assignments to row `i*2+1` of `J`. -/
def updateJy (i : Nat) (J : vpMatrix) (Zi xi yi : ℚ) : Option vpMatrix := do
  let J ← J.writeAt (i * 2 + 1) 0 0
  let J ← J.writeAt (i * 2 + 1) 1 (-1 / Zi)
  let J ← J.writeAt (i * 2 + 1) 2 (yi / Zi)
  let J ← J.writeAt (i * 2 + 1) 3 (1 + yi * yi)
  let J ← J.writeAt (i * 2 + 1) 4 (-xi * yi)
  let J ← J.writeAt (i * 2 + 1) 5 (-xi)
  some J

/-- The body of the loop `for (i = 0; i < npoints; i++)` for the point `w =
wX[i]`: it transforms `w` into the camera frame, stores the projection in
`xq` and fills rows `i*2` and `i*2+1` of `J`. -/
def pointBody (cTw_ : vpHomogeneousMatrix) (w : vpColVector) (i : Nat) (J : vpMatrix)
    (xq : vpColVector) : Option (vpMatrix × vpColVector) := do
  let cX ← cTw_.mulColVector w
  let Xi ← cX[0]?
  let Yi ← cX[1]?
  let Zi ← cX[2]?
  let xq ← updateXq i xq Xi Yi Zi
  let xi := Xi / Zi
  let yi := Yi / Zi
  let J ← updateJx i J Zi xi yi
  let J ← updateJy i J Zi xi yi
  some (J, xq)

/-- The loop `for (i = 0; i < npoints; i++)` of one iteration, from index `i`
on, over the points `wX[i], wX[i+1], ...`. -/
def pointLoop (cTw_ : vpHomogeneousMatrix) :
    List vpColVector → Nat → vpMatrix → vpColVector → Option (vpMatrix × vpColVector)
  | [], _, J, xq => some (J, xq)
  | w :: rest, i, J, xq =>
    match pointBody cTw_ w i J xq with
    | none => none
    | some (J1, xq1) => pointLoop cTw_ rest (i + 1) J1 xq1

/-- The variables of `pose_gauss_newton` that live across iterations.
(`residual_prev` is assigned in the body before it is read; it is returned by
`loopBody` next to the state.) -/
structure LoopState where
  J : vpMatrix
  xq : vpColVector
  cTw_ : vpHomogeneousMatrix
  residual : ℚ

/-- What one pass of the body of the `do ... while` loop computes: the loop
state carried to the next pass (`next`), and the values of `e_q`, `dq` and
`residual_prev` of this pass. -/
structure Iteration where
  next : LoopState
  e_q : vpColVector
  dq : vpColVector
  residual_prev : ℚ

/-- One pass of the body of the `do ... while` loop; `none` is a fault. -/
def loopBody (c : Collaborators) (wX : List vpColVector) (xn : vpColVector) (s : LoopState) :
    Option Iteration := do
  let (J, xq) ← pointLoop s.cTw_ wX 0 s.J s.xq
  let e_q := xq.sub xn
  let Jp := c.pseudoInverse J
  let dq := ((Jp.scale (-lambda)).mulVec e_q)
  let cTw_ := ((c.direct dq).inverse).mul s.cTw_
  let residual_prev := s.residual
  let residual := e_q.sumSquare
  some ⟨⟨J, xq, cTw_, residual⟩, e_q, dq, residual_prev⟩

/-- A C++ `double` with its non-finite values: a finite value (an exact
rational), an infinity with its sign, or a NaN.  Rounding, overflow and the
sign of zero are not represented; a zero divisor counts as `+0`. -/
inductive Dbl where
  | fin (q : ℚ)
  | inf (negative : Bool)
  | nan
  deriving DecidableEq

namespace Dbl

/-- IEEE negation. -/
def neg : Dbl → Dbl
  | fin q => fin (-q)
  | inf s => inf (!s)
  | nan => nan

/-- IEEE addition: `inf + (-inf)` is NaN. -/
def add : Dbl → Dbl → Dbl
  | fin a, fin b => fin (a + b)
  | fin _, inf s => inf s
  | inf s, fin _ => inf s
  | inf s, inf t => if s = t then inf s else nan
  | nan, _ => nan
  | _, nan => nan

/-- IEEE subtraction. -/
def sub (a b : Dbl) : Dbl := add a (neg b)

/-- IEEE multiplication: `0 * inf` is NaN. -/
def mul : Dbl → Dbl → Dbl
  | fin a, fin b => fin (a * b)
  | fin a, inf s => if a = 0 then nan else inf (xor (decide (a < 0)) s)
  | inf s, fin b => if b = 0 then nan else inf (xor s (decide (b < 0)))
  | inf s, inf t => inf (xor s t)
  | nan, _ => nan
  | _, nan => nan

/-- IEEE division: `0 / 0` is NaN, `a / 0` is an infinity for `a ≠ 0`. -/
def div : Dbl → Dbl → Dbl
  | fin a, fin b =>
    if b = 0 then (if a = 0 then nan else inf (decide (a < 0))) else fin (a / b)
  | fin _, inf _ => fin 0
  | inf s, fin b => inf (xor s (decide (b < 0)))
  | inf _, inf _ => nan
  | nan, _ => nan
  | _, nan => nan

/-- The function `fabs`. -/
def fabs : Dbl → Dbl
  | fin q => fin |q|
  | inf _ => inf false
  | nan => nan

/-- The comparison `a > b`: false as soon as one side is NaN. -/
def gt : Dbl → Dbl → Bool
  | fin a, fin b => decide (a > b)
  | fin _, inf s => s
  | inf s, fin _ => !s
  | inf s, inf t => !s && t
  | nan, _ => false
  | _, nan => false

end Dbl

/-- The loop condition `fabs(residual - residual_prev) > 0` in IEEE values. -/
def loopCondDbl (residual residual_prev : Dbl) : Bool :=
  Dbl.gt (Dbl.fabs (Dbl.sub residual residual_prev)) (Dbl.fin 0)

/-- The loop condition `fabs(residual - residual_prev) > 0` of the loop, whose
two norms are finite values: it is `|residual - residual_prev| > 0` on the
rationals.  A norm that is a NaN, which makes the comparison false, is a
value of `Dbl` only. -/
def loopCond (residual residual_prev : ℚ) : Bool :=
  loopCondDbl (Dbl.fin residual) (Dbl.fin residual_prev)

/-- How a call ends: it returns a pose, it stops on a fault (an access
outside a buffer, or a vector the transform does not accept), or it is still
iterating when the bound on the number of iterations is reached. -/
inductive Outcome where
  | returned (cTw : vpHomogeneousMatrix)
  | fault
  | running

/-- The `do ... while` loop, run for at most `fuel` iterations. -/
def doWhile (c : Collaborators) (wX : List vpColVector) (xn : vpColVector) :
    Nat → LoopState → Outcome
  | 0, _ => Outcome.running
  | fuel + 1, s =>
    match loopBody c wX xn s with
    | none => Outcome.fault
    | some it =>
      if loopCond it.next.residual it.residual_prev then doWhile c wX xn fuel it.next
      else Outcome.returned it.next.cTw_

/-- The state on entry of the loop: `J(2*npoints, 6)`, `xq(npoints*2)`,
`cTw_ = cTw`, `residual = 0`. -/
def initState (npoints : Nat) (cTw : vpHomogeneousMatrix) : LoopState :=
  ⟨vpMatrix.zeros (2 * npoints) 6, vpColVector.zeros (npoints * 2), cTw, 0⟩

/-- The estimator `pose_gauss_newton(wX, x, cTw)`, run for at most `fuel`
iterations. -/
def pose_gauss_newton (c : Collaborators) (fuel : Nat) (wX x : List vpColVector)
    (cTw : vpHomogeneousMatrix) : Outcome :=
  let npoints := wX.length
  match marshalLoop x 0 (vpColVector.zeros (npoints * 2)) with
  | none => Outcome.fault
  | some xn => doWhile c wX xn fuel (initState npoints cTw)

/-- The Jacobian row for `x` of a camera-frame point `(X, Y, Z)`, as the
specification writes it, with `x = X/Z` and `y = Y/Z`. -/
def specRowX (X Y Z : ℚ) : List ℚ :=
  [-1 / Z, 0, (X / Z) / Z, (X / Z) * (Y / Z), -(1 + (X / Z) * (X / Z)), Y / Z]

/-- The Jacobian row for `y` of a camera-frame point `(X, Y, Z)`, as the
specification writes it, with `x = X/Z` and `y = Y/Z`. -/
def specRowY (X Y Z : ℚ) : List ℚ :=
  [0, -1 / Z, (Y / Z) / Z, 1 + (Y / Z) * (Y / Z), -(X / Z) * (Y / Z), -(X / Z)]

/-- The camera-frame point `cTw * w` of a world point, `(0, 0, 0)` when the
transform does not accept `w`. -/
def cameraPoint (cTw : vpHomogeneousMatrix) (w : vpColVector) : ℚ × ℚ × ℚ :=
  match cTw.mulColVector w with
  | some (X :: Y :: Z :: _) => (X, Y, Z)
  | _ => (0, 0, 0)

/-- The stacked Jacobian of the specification at pose `cTw`: two rows per
world point, the row for `x` then the row for `y`. -/
def specJacobian (cTw : vpHomogeneousMatrix) : List vpColVector → vpMatrix
  | [] => []
  | w :: rest =>
    specRowX (cameraPoint cTw w).1 (cameraPoint cTw w).2.1 (cameraPoint cTw w).2.2 ::
    specRowY (cameraPoint cTw w).1 (cameraPoint cTw w).2.1 (cameraPoint cTw w).2.2 ::
    specJacobian cTw rest

/-- The predicted projections of the specification at pose `cTw`: `X/Z` then
`Y/Z` for each world point. -/
def specProjection (cTw : vpHomogeneousMatrix) : List vpColVector → vpColVector
  | [] => []
  | w :: rest =>
    (cameraPoint cTw w).1 / (cameraPoint cTw w).2.2 ::
    (cameraPoint cTw w).2.1 / (cameraPoint cTw w).2.2 ::
    specProjection cTw rest

/-- The observations of the specification: the first two components of each
observed point, interleaved. -/
def specObservation : List vpColVector → vpColVector
  | [] => []
  | xi :: rest => xi.getD 0 0 :: xi.getD 1 0 :: specObservation rest

/-- The buffers of a loop state have the shape the estimator allocates for
`npoints` points: `J` is `2*npoints × 6` and `xq` has `2*npoints` entries. -/
def Shaped (npoints : Nat) (s : LoopState) : Prop :=
  s.J.length = 2 * npoints ∧ (∀ row ∈ s.J, row.length = 6) ∧ s.xq.length = 2 * npoints

instance decShaped (npoints : Nat) (s : LoopState) : Decidable (Shaped npoints s) := by
  unfold Shaped
  infer_instance

/-- Every world point is a homogeneous vector of four entries. -/
def WorldOk (wX : List vpColVector) : Prop := ∀ w ∈ wX, w.length = 4

instance decWorldOk (wX : List vpColVector) : Decidable (WorldOk wX) := by
  unfold WorldOk
  infer_instance

/-- Every observed point carries at least the two components `x` and `y`. -/
def ObservedOk (x : List vpColVector) : Prop := ∀ xi ∈ x, 2 ≤ xi.length

instance decObservedOk (x : List vpColVector) : Decidable (ObservedOk x) := by
  unfold ObservedOk
  infer_instance

/-- The residual vector of the specification at pose `cTw`: predicted minus
observed, interleaved `x` then `y` per point. -/
def specResidual (cTw : vpHomogeneousMatrix) (wX : List vpColVector) (xn : vpColVector) :
    vpColVector :=
  (specProjection cTw wX).sub xn

/-- The twist of the specification, `-gain · pinv(J) · residual` with the
gain `0.25`. -/
def specTwist (c : Collaborators) (wX : List vpColVector) (xn : vpColVector)
    (cTw : vpHomogeneousMatrix) : vpColVector :=
  (vpMatrix.mulVec (c.pseudoInverse (specJacobian cTw wX)) (specResidual cTw wX xn)).map
    (fun a => -(1 / 4) * a)

/-- The retraction of the specification, `newPose = exp(twist)⁻¹ · previousPose`. -/
def specStep (c : Collaborators) (wX : List vpColVector) (xn : vpColVector)
    (cTw : vpHomogeneousMatrix) : vpHomogeneousMatrix :=
  ((c.direct (specTwist c wX xn cTw)).inverse).mul cTw

/-- The sum of squares of the residual vector of the specification at pose
`cTw`. -/
def specNorm (wX : List vpColVector) (xn : vpColVector) (cTw : vpHomogeneousMatrix) : ℚ :=
  (specResidual cTw wX xn).sumSquare

/-- The variables after `k` passes of the loop body, whatever the stopping
tests in between said. -/
def iterateBody (c : Collaborators) (wX : List vpColVector) (xn : vpColVector) :
    Nat → LoopState → Option LoopState
  | 0, s => some s
  | k + 1, s =>
    match iterateBody c wX xn k s with
    | none => none
    | some s1 =>
      match loopBody c wX xn s1 with
      | none => none
      | some it => some it.next

/-- The pass number `k + 1` of the loop body, started from `s`. -/
def iterationFrom (c : Collaborators) (wX : List vpColVector) (xn : vpColVector)
    (k : Nat) (s : LoopState) : Option Iteration :=
  match iterateBody c wX xn k s with
  | none => none
  | some s1 => loopBody c wX xn s1

/-- The variables of `pose_gauss_newton(wX, x, cTw)` after marshaling and `k`
passes of the loop body. -/
def stateAfter (c : Collaborators) (wX x : List vpColVector) (cTw : vpHomogeneousMatrix)
    (k : Nat) : Option LoopState :=
  match marshalLoop x 0 (vpColVector.zeros (wX.length * 2)) with
  | none => none
  | some xn => iterateBody c wX xn k (initState wX.length cTw)

/-- The pass number `k + 1` of the loop body of `pose_gauss_newton(wX, x, cTw)`. -/
def iterationAt (c : Collaborators) (wX x : List vpColVector) (cTw : vpHomogeneousMatrix)
    (k : Nat) : Option Iteration :=
  match marshalLoop x 0 (vpColVector.zeros (wX.length * 2)) with
  | none => none
  | some xn => iterationFrom c wX xn k (initState wX.length cTw)

/-- The observed point `xi` is the exact projection of the world point `w`
through `cTw`, the depth being non-zero. -/
def ExactPoint (cTw : vpHomogeneousMatrix) (w xi : vpColVector) : Prop :=
  match cTw.mulColVector w, xi with
  | some [X, Y, Z, _], a :: b :: _ => Z ≠ 0 ∧ X / Z = a ∧ Y / Z = b
  | _, _ => False

instance decExactPoint (cTw : vpHomogeneousMatrix) (w xi : vpColVector) :
    Decidable (ExactPoint cTw w xi) := by
  unfold ExactPoint
  split <;> infer_instance

/-- The observations are the exact projections of the world points through
`cTw`, every depth being non-zero. -/
def ExactObservations (cTw : vpHomogeneousMatrix) : List vpColVector → List vpColVector → Prop
  | [], [] => True
  | w :: wX, xi :: x => ExactPoint cTw w xi ∧ ExactObservations cTw wX x
  | _, _ => False

instance decExactObservations (cTw : vpHomogeneousMatrix) :
    ∀ wX x : List vpColVector, Decidable (ExactObservations cTw wX x)
  | [], [] => isTrue trivial
  | w :: wX, xi :: x =>
    have : Decidable (ExactObservations cTw wX x) := decExactObservations cTw wX x
    inferInstanceAs (Decidable (ExactPoint cTw w xi ∧ ExactObservations cTw wX x))
  | [], _ :: _ => isFalse (fun h => h)
  | _ :: _, [] => isFalse (fun h => h)

/-- A stand-in for the collaborators, for evaluating the model on concrete
inputs: the pseudo-inverse is the zero matrix of the transposed shape and the
exponential map is the identity transform. -/
def frozenCollaborators : Collaborators :=
  ⟨fun J => List.replicate 6 (List.replicate J.length 0), fun _ => vpHomogeneousMatrix.identity⟩

/-- A test scene of one point: the world point `(1, 2, 4)`. -/
def sceneWorld : List vpColVector := [[1, 2, 4, 1]]

/-- The projection of `sceneWorld` through the identity pose. -/
def sceneObserved : List vpColVector := [[1 / 4, 1 / 2, 1]]

/-- A test scene of one point on the optical axis: the world point
`(0, 0, 2)`. -/
def axisWorld : List vpColVector := [[0, 0, 2, 1]]

/-- The projection of `axisWorld` through the identity pose. -/
def axisObserved : List vpColVector := [[0, 0, 1]]

/-- A test scene of one point at the centre of projection: under the
identity pose its camera-frame point is `(0, 0, 0)`, of depth `Z = 0`. -/
def originWorld : List vpColVector := [[0, 0, 0, 1]]

/-- An observation for `originWorld`. -/
def originObserved : List vpColVector := [[0, 0, 1]]

/-- A test scene of three points. -/
def triWorld : List vpColVector := [[1, 0, 2, 1], [0, 1, 2, 1], [1, 1, 4, 1]]

/-- The projections of `triWorld` through the identity pose. -/
def triObserved : List vpColVector := [[1 / 2, 0, 1], [0, 1 / 2, 1], [1 / 4, 1 / 4, 1]]

/-- The loop state the specification describes after one iteration from `s`:
Jacobian and projections rebuilt at the pose of `s`, the pose retracted, the
norm recomputed. -/
def specNext (c : Collaborators) (wX : List vpColVector) (xn : vpColVector) (s : LoopState) :
    LoopState :=
  ⟨specJacobian s.cTw_ wX, specProjection s.cTw_ wX, specStep c wX xn s.cTw_,
    specNorm wX xn s.cTw_⟩

/-- A test scene of four coplanar points, the corners of a square. -/
def squareWorld : List vpColVector :=
  [[1, 1, 0, 1], [1, -1, 0, 1], [-1, 1, 0, 1], [-1, -1, 0, 1]]

/-- The pose that faces the plane of `squareWorld` from the distance `Z`:
no rotation, translation `(0, 0, Z)`. -/
def depthPose (Z : ℚ) : vpHomogeneousMatrix := ⟨1, ![0, 0, Z]⟩

/-- The projections of `squareWorld` through `depthPose 1`. -/
def squareObserved : List vpColVector :=
  [[1, 1, 1], [1, -1, 1], [-1, 1, 1], [-1, -1, 1]]

/-- The Jacobian of `squareWorld` seen from `depthPose Z`. -/
def squareJacobian (Z : ℚ) : vpMatrix :=
  [specRowX 1 1 Z, specRowY 1 1 Z, specRowX 1 (-1) Z, specRowY 1 (-1) Z,
   specRowX (-1) 1 Z, specRowY (-1) 1 Z, specRowX (-1) (-1) Z, specRowY (-1) (-1) Z]

/-- The Moore-Penrose pseudo-inverse of the matrices `squareJacobian Z`, `Z ≠
0`: the depth is read from the first entry `-1/Z` of the matrix.  (On other
matrices the result has no meaning.) -/
def squarePinv (J : vpMatrix) : vpMatrix :=
  let Z := -1 / (J.headD []).headD 0
  [[-Z / 4, (Z ^ 3 + Z) / 4, -Z / 4, -(Z ^ 3 + Z) / 4, -Z / 4, -(Z ^ 3 + Z) / 4, -Z / 4,
      (Z ^ 3 + Z) / 4],
   [(Z ^ 3 + Z) / 4, -Z / 4, -(Z ^ 3 + Z) / 4, -Z / 4, -(Z ^ 3 + Z) / 4, -Z / 4,
      (Z ^ 3 + Z) / 4, -Z / 4],
   [Z ^ 2 / 8, Z ^ 2 / 8, Z ^ 2 / 8, -Z ^ 2 / 8, -Z ^ 2 / 8, Z ^ 2 / 8, -Z ^ 2 / 8, -Z ^ 2 / 8],
   [Z ^ 2 / 4, 0, -Z ^ 2 / 4, 0, -Z ^ 2 / 4, 0, Z ^ 2 / 4, 0],
   [0, -Z ^ 2 / 4, 0, Z ^ 2 / 4, 0, Z ^ 2 / 4, 0, -Z ^ 2 / 4],
   [Z / 8, -Z / 8, -Z / 8, -Z / 8, Z / 8, Z / 8, -Z / 8, Z / 8]]

/-- The exponential map on the twists without rotation: the twist `(v, 0)`
gives the translation by `v`.  (The rotation part of a twist is ignored.) -/
def squareExp (dq : vpColVector) : vpHomogeneousMatrix :=
  ⟨1, ![dq.getD 0 0, dq.getD 1 0, dq.getD 2 0]⟩

/-- Collaborators that are exact on the square scene seen from a pose
`depthPose Z`. -/
def squareCollaborators : Collaborators := ⟨squarePinv, squareExp⟩

/-- The depth after one iteration on the square scene, from the depth `Z`. -/
def nextDepth (Z : ℚ) : ℚ := Z * (5 - Z) / 4

/-- The depths of the iterates on the square scene, started at `24/5`. -/
def depthSeq : Nat → ℚ
  | 0 => 24 / 5
  | k + 1 => nextDepth (depthSeq k)

/-- The indices of `xn` that the marshaling loop writes for `M` observed
points, in order: `i*2` then `i*2+1` for `i = 0, ..., M-1`. -/
def marshalWrites : Nat → List Nat
  | 0 => []
  | M + 1 => marshalWrites M ++ [M * 2, M * 2 + 1]

/-- The rotation block of a transform is orthonormal, `Rᵀ R = 1`. -/
def IsRigid (M : vpHomogeneousMatrix) : Prop := M.R.transpose * M.R = 1

instance decIsRigid (M : vpHomogeneousMatrix) : Decidable (IsRigid M) := by
  unfold IsRigid
  infer_instance

/-- Every world point has a non-zero depth under the pose `cTw`. -/
def DepthsOk (cTw : vpHomogeneousMatrix) (wX : List vpColVector) : Prop :=
  ∀ w ∈ wX, (cameraPoint cTw w).2.2 ≠ 0

instance decDepthsOk (cTw : vpHomogeneousMatrix) (wX : List vpColVector) :
    Decidable (DepthsOk cTw wX) := by
  unfold DepthsOk
  infer_instance

/-- The vector `xq` after the point loop of the first pass, with the IEEE
value of each division: `Xi / Zi` then `Yi / Zi` per point. -/
def projectionDbl (cTw : vpHomogeneousMatrix) : List vpColVector → List Dbl
  | [] => []
  | w :: rest =>
    Dbl.div (Dbl.fin (cameraPoint cTw w).1) (Dbl.fin (cameraPoint cTw w).2.2) ::
    Dbl.div (Dbl.fin (cameraPoint cTw w).2.1) (Dbl.fin (cameraPoint cTw w).2.2) ::
    projectionDbl cTw rest

/-- The vector `e_q = xq - xn` in IEEE values. -/
def residualDbl (xq : List Dbl) (xn : vpColVector) : List Dbl :=
  List.zipWith (fun p q => Dbl.sub p (Dbl.fin q)) xq xn

/-- The sum of squares `e_q.sumSquare()` in IEEE values. -/
def sumSquareDbl (v : List Dbl) : Dbl :=
  v.foldl (fun acc a => Dbl.add acc (Dbl.mul a a)) (Dbl.fin 0)

/-- The value of `residual` after the first pass of the loop body, in IEEE
values, from the initial pose `cTw`. -/
def firstNormDbl (cTw : vpHomogeneousMatrix) (wX : List vpColVector) (xn : vpColVector) : Dbl :=
  sumSquareDbl (residualDbl (projectionDbl cTw wX) xn)

/-- A stand-in for the collaborators whose exponential map is the same
translation for every twist: every retraction moves the pose by `(0, 0, 1)`. -/
def shiftCollaborators : Collaborators :=
  ⟨fun J => List.replicate 6 (List.replicate J.length 0), fun _ => ⟨1, ![0, 0, -1]⟩⟩

/-! ## Rigid transforms

The operations on `vpHomogeneousMatrix` agree with the algebra of 4×4
matrices. -/

theorem toMatrix_mul (A B : vpHomogeneousMatrix) :
    (A.mul B).toMatrix = A.toMatrix * B.toMatrix := by
  ext i j
  fin_cases i <;> fin_cases j <;>
    simp [vpHomogeneousMatrix.toMatrix, vpHomogeneousMatrix.mul, Matrix.mul_apply,
      Fin.sum_univ_four, Fin.sum_univ_three, Matrix.mulVec, Matrix.dotProduct]

theorem toMatrix_mulColVector (M : vpHomogeneousMatrix) (a b c d : ℚ) :
    M.mulColVector [a, b, c, d] =
      some (List.ofFn (M.toMatrix.mulVec ![a, b, c, d])) := by
  simp [vpHomogeneousMatrix.mulColVector, vpHomogeneousMatrix.toMatrix, Matrix.mulVec,
    Matrix.dotProduct, Fin.sum_univ_four, List.ofFn_succ]
  refine ⟨?_, ?_, ?_⟩ <;> ring

theorem toMatrix_inverse (M : vpHomogeneousMatrix) (h : M.R.transpose * M.R = 1) :
    M.inverse.toMatrix * M.toMatrix = 1 := by
  rw [← toMatrix_mul]
  have hR : (M.inverse.mul M).R = 1 := h
  have ht : (M.inverse.mul M).t = 0 := by
    simp [vpHomogeneousMatrix.inverse, vpHomogeneousMatrix.mul]
  ext i j
  fin_cases i <;> fin_cases j <;> simp [vpHomogeneousMatrix.toMatrix, hR, ht] <;> rfl

/-! ## Buffer accesses -/

theorem vecWrite_append (pre post : vpColVector) (a v : ℚ) (i : Nat)
    (h : pre.length = i) :
    vpColVector.writeAt (pre ++ a :: post) i v = some (pre ++ v :: post) := by
  subst h
  simp [vpColVector.writeAt]

theorem matWrite_append (pre post : vpMatrix) (row : List ℚ) (c : Nat) (v : ℚ)
    (i : Nat) (h : pre.length = i) (hc : c < row.length) :
    vpMatrix.writeAt (pre ++ row :: post) i c v = some (pre ++ row.set c v :: post) := by
  subst h
  have hget : (pre ++ row :: post)[pre.length]? = some row := by
    rw [List.getElem?_append_right (Nat.le_refl _)]
    simp
  unfold vpMatrix.writeAt
  rw [hget]
  simp [hc]

theorem length_six (row : List ℚ) (h : row.length = 6) :
    ∃ a0 a1 a2 a3 a4 a5, row = [a0, a1, a2, a3, a4, a5] := by
  match row, h with
  | [a0, a1, a2, a3, a4, a5], _ => exact ⟨a0, a1, a2, a3, a4, a5, rfl⟩

theorem length_four (w : List ℚ) (h : w.length = 4) :
    ∃ a b c d, w = [a, b, c, d] := by
  match w, h with
  | [a, b, c, d], _ => exact ⟨a, b, c, d, rfl⟩

theorem updateXq_append (pre post : vpColVector) (a b Xi Yi Zi : ℚ) (i : Nat)
    (h : pre.length = i * 2) :
    updateXq i (pre ++ a :: b :: post) Xi Yi Zi = some (pre ++ Xi / Zi :: Yi / Zi :: post) := by
  have h1 : (pre ++ [Xi / Zi]).length = i * 2 + 1 := by simp [h]
  have e1 : pre ++ Xi / Zi :: b :: post = (pre ++ [Xi / Zi]) ++ b :: post := by simp
  simp only [updateXq, vecWrite_append pre (b :: post) a (Xi / Zi) (i * 2) h,
    Option.bind_eq_bind, Option.some_bind]
  rw [e1, vecWrite_append _ post b (Yi / Zi) (i * 2 + 1) h1]
  simp

theorem updateJx_append (pre post : vpMatrix) (row : List ℚ) (Zi xi yi : ℚ) (i : Nat)
    (h : pre.length = i * 2) (hrow : row.length = 6) :
    updateJx i (pre ++ row :: post) Zi xi yi =
      some (pre ++ [-1 / Zi, 0, xi / Zi, xi * yi, -(1 + xi * xi), yi] :: post) := by
  obtain ⟨a0, a1, a2, a3, a4, a5, rfl⟩ := length_six row hrow
  simp [updateJx, matWrite_append, h]

theorem updateJy_append (pre post : vpMatrix) (row : List ℚ) (Zi xi yi : ℚ) (i : Nat)
    (h : pre.length = i * 2 + 1) (hrow : row.length = 6) :
    updateJy i (pre ++ row :: post) Zi xi yi =
      some (pre ++ [0, -1 / Zi, yi / Zi, 1 + yi * yi, -xi * yi, -xi] :: post) := by
  obtain ⟨a0, a1, a2, a3, a4, a5, rfl⟩ := length_six row hrow
  simp [updateJy, matWrite_append, h]

/-! ## The point loop -/

theorem cameraPoint_eq (cTw : vpHomogeneousMatrix) (w : vpColVector) (X Y Z W : ℚ)
    (h : cTw.mulColVector w = some [X, Y, Z, W]) : cameraPoint cTw w = (X, Y, Z) := by
  simp [cameraPoint, h]

theorem mulColVector_four (cTw : vpHomogeneousMatrix) (w : vpColVector) (h : w.length = 4) :
    ∃ X Y Z W, cTw.mulColVector w = some [X, Y, Z, W] := by
  obtain ⟨a, b, c, d, rfl⟩ := length_four w h
  exact ⟨_, _, _, _, rfl⟩

theorem pointBody_eq (cTw : vpHomogeneousMatrix) (w : vpColVector) (i : Nat)
    (J : vpMatrix) (xq : vpColVector) (X Y Z W : ℚ)
    (hcX : cTw.mulColVector w = some [X, Y, Z, W]) :
    pointBody cTw w i J xq =
      (updateXq i xq X Y Z).bind fun xq1 =>
      (updateJx i J Z (X / Z) (Y / Z)).bind fun J1 =>
      (updateJy i J1 Z (X / Z) (Y / Z)).bind fun J2 => some (J2, xq1) := by
  unfold pointBody
  rw [hcX]
  rfl

theorem updateJx_spec (pre post : vpMatrix) (row : List ℚ) (X Y Z : ℚ) (i : Nat)
    (h : pre.length = i * 2) (hrow : row.length = 6) :
    updateJx i (pre ++ row :: post) Z (X / Z) (Y / Z) = some (pre ++ specRowX X Y Z :: post) :=
  updateJx_append pre post row Z (X / Z) (Y / Z) i h hrow

theorem updateJy_spec (pre post : vpMatrix) (row : List ℚ) (X Y Z : ℚ) (i : Nat)
    (h : pre.length = i * 2 + 1) (hrow : row.length = 6) :
    updateJy i (pre ++ row :: post) Z (X / Z) (Y / Z) = some (pre ++ specRowY X Y Z :: post) :=
  updateJy_append pre post row Z (X / Z) (Y / Z) i h hrow

theorem pointBody_append (cTw : vpHomogeneousMatrix) (w : vpColVector) (i : Nat)
    (Jpre Jpost : vpMatrix) (r0 r1 : List ℚ) (xpre xpost : vpColVector) (a b : ℚ)
    (X Y Z W : ℚ) (hcX : cTw.mulColVector w = some [X, Y, Z, W])
    (hJ : Jpre.length = i * 2) (hx : xpre.length = i * 2)
    (h0 : r0.length = 6) (h1 : r1.length = 6) :
    pointBody cTw w i (Jpre ++ r0 :: r1 :: Jpost) (xpre ++ a :: b :: xpost) =
      some (Jpre ++ specRowX X Y Z :: specRowY X Y Z :: Jpost,
            xpre ++ X / Z :: Y / Z :: xpost) := by
  have hlen : (Jpre ++ [specRowX X Y Z]).length = i * 2 + 1 := by
    rw [List.length_append, hJ]; rfl
  have e1 : Jpre ++ specRowX X Y Z :: r1 :: Jpost = (Jpre ++ [specRowX X Y Z]) ++ r1 :: Jpost := by
    rw [List.append_assoc]; rfl
  have e2 : (Jpre ++ [specRowX X Y Z]) ++ specRowY X Y Z :: Jpost
      = Jpre ++ specRowX X Y Z :: specRowY X Y Z :: Jpost := by
    rw [List.append_assoc]; rfl
  rw [pointBody_eq cTw w i _ _ X Y Z W hcX, updateXq_append xpre xpost a b X Y Z i hx,
    Option.some_bind, updateJx_spec Jpre (r1 :: Jpost) r0 X Y Z i hJ h0, Option.some_bind,
    e1, updateJy_spec (Jpre ++ [specRowX X Y Z]) Jpost r1 X Y Z i hlen h1, Option.some_bind, e2]

theorem specJacobian_cons (cTw : vpHomogeneousMatrix) (w : vpColVector) (rest : List vpColVector)
    (X Y Z W : ℚ) (hcX : cTw.mulColVector w = some [X, Y, Z, W]) :
    specJacobian cTw (w :: rest) = specRowX X Y Z :: specRowY X Y Z :: specJacobian cTw rest := by
  rw [specJacobian, cameraPoint_eq cTw w X Y Z W hcX]

theorem specProjection_cons (cTw : vpHomogeneousMatrix) (w : vpColVector)
    (rest : List vpColVector) (X Y Z W : ℚ) (hcX : cTw.mulColVector w = some [X, Y, Z, W]) :
    specProjection cTw (w :: rest) = X / Z :: Y / Z :: specProjection cTw rest := by
  rw [specProjection, cameraPoint_eq cTw w X Y Z W hcX]

theorem pointLoop_append (cTw : vpHomogeneousMatrix) (ws : List vpColVector) :
    ∀ (i : Nat) (Jpre Jtodo : vpMatrix) (xpre xtodo : vpColVector),
      WorldOk ws → Jpre.length = i * 2 → xpre.length = i * 2 →
      Jtodo.length = 2 * ws.length → (∀ row ∈ Jtodo, row.length = 6) →
      xtodo.length = 2 * ws.length →
      pointLoop cTw ws i (Jpre ++ Jtodo) (xpre ++ xtodo) =
        some (Jpre ++ specJacobian cTw ws, xpre ++ specProjection cTw ws) := by
  induction ws with
  | nil =>
    intro i Jpre Jtodo xpre xtodo _ _ _ hJ _ hx
    have hJ0 : Jtodo = [] := List.length_eq_zero.mp (by simpa using hJ)
    have hx0 : xtodo = [] := List.length_eq_zero.mp (by simpa using hx)
    subst hJ0 hx0
    rfl
  | cons w rest ih =>
    intro i Jpre Jtodo xpre xtodo hW hJpre hxpre hJ hrows hx
    have hw : w.length = 4 := hW w (List.mem_cons_self _ _)
    have hrest : WorldOk rest := fun v hv => hW v (List.mem_cons_of_mem _ hv)
    obtain ⟨X, Y, Z, W, hcX⟩ := mulColVector_four cTw w hw
    match Jtodo, xtodo, hJ, hrows, hx with
    | r0 :: r1 :: Jpost, a :: b :: xpost, hJ, hrows, hx =>
      have h0 : r0.length = 6 := hrows r0 (by simp)
      have h1 : r1.length = 6 := hrows r1 (by simp)
      have hpost : ∀ row ∈ Jpost, row.length = 6 := fun row hr => hrows row (by simp [hr])
      have hJl : Jpost.length = 2 * rest.length := by
        simp only [List.length_cons] at hJ
        omega
      have hxl : xpost.length = 2 * rest.length := by
        simp only [List.length_cons] at hx
        omega
      have step := ih (i + 1) (Jpre ++ [specRowX X Y Z, specRowY X Y Z]) Jpost
        (xpre ++ [X / Z, Y / Z]) xpost hrest
        (by rw [List.length_append, hJpre]; simp; omega)
        (by rw [List.length_append, hxpre]; simp; omega) hJl hpost hxl
      rw [pointLoop, pointBody_append cTw w i Jpre Jpost r0 r1 xpre xpost a b X Y Z W hcX
        hJpre hxpre h0 h1]
      rw [specJacobian_cons cTw w rest X Y Z W hcX, specProjection_cons cTw w rest X Y Z W hcX]
      simp only [List.append_assoc, List.cons_append, List.nil_append] at step
      exact step

theorem pointLoop_shaped (wX : List vpColVector) (s : LoopState)
    (hW : WorldOk wX) (hS : Shaped wX.length s) :
    pointLoop s.cTw_ wX 0 s.J s.xq =
      some (specJacobian s.cTw_ wX, specProjection s.cTw_ wX) := by
  have h := pointLoop_append s.cTw_ wX 0 [] s.J [] s.xq hW rfl rfl hS.1 hS.2.1 hS.2.2
  simpa using h

/-- The point loop evaluated on the one-point scene `(1, 2, 4)` from the
identity pose: `x = 1/4`, `y = 1/2`, `Z = 4`. -/
theorem pointLoop_scene :
    pointLoop vpHomogeneousMatrix.identity sceneWorld 0 (vpMatrix.zeros 2 6)
        (vpColVector.zeros 2) =
      some ([[-1 / 4, 0, 1 / 16, 1 / 8, -17 / 16, 1 / 2],
             [0, -1 / 4, 1 / 8, 5 / 4, -1 / 8, -1 / 4]], [1 / 4, 1 / 2]) := by
  simp [pointLoop, pointBody, sceneWorld, vpHomogeneousMatrix.mulColVector,
    vpHomogeneousMatrix.identity, updateXq, updateJx, updateJy, vpColVector.writeAt,
    vpMatrix.writeAt, vpMatrix.zeros, vpColVector.zeros, List.replicate]
  norm_num

/-! ## Marshaling -/

theorem marshalLoop_cons (a b : ℚ) (tl : List ℚ) (rest : List vpColVector) (i : Nat)
    (xn : vpColVector) :
    marshalLoop ((a :: b :: tl) :: rest) i xn =
      (xn.writeAt (i * 2) a).bind fun xn1 =>
      (xn1.writeAt (i * 2 + 1) b).bind fun xn2 => marshalLoop rest (i + 1) xn2 := by
  rw [marshalLoop]
  simp only [List.getElem?_cons_zero, List.getElem?_cons_succ, Option.bind_eq_bind,
    Option.some_bind]

theorem marshalLoop_append (x : List vpColVector) :
    ∀ (i : Nat) (pre todo : vpColVector),
      ObservedOk x → pre.length = i * 2 → 2 * x.length ≤ todo.length →
      marshalLoop x i (pre ++ todo) =
        some (pre ++ (specObservation x ++ todo.drop (2 * x.length))) := by
  induction x with
  | nil =>
    intro i pre todo _ _ _
    simp [marshalLoop, specObservation]
  | cons xi rest ih =>
    intro i pre todo hO hpre hlen
    have hxi : 2 ≤ xi.length := hO xi (List.mem_cons_self _ _)
    have hrest : ObservedOk rest := fun v hv => hO v (List.mem_cons_of_mem _ hv)
    match xi, hxi, todo, hlen with
    | a :: b :: tl, _, t0 :: t1 :: todo1, hlen =>
      have hl : 2 * rest.length ≤ todo1.length := by
        simp only [List.length_cons] at hlen
        omega
      have h1 : (pre ++ [a]).length = i * 2 + 1 := by
        rw [List.length_append, hpre]; rfl
      have h2 : (pre ++ [a, b]).length = (i + 1) * 2 := by
        rw [List.length_append, hpre]; simp; omega
      have e1 : pre ++ a :: t1 :: todo1 = (pre ++ [a]) ++ t1 :: todo1 := by
        rw [List.append_assoc]; rfl
      have e2 : (pre ++ [a]) ++ b :: todo1 = (pre ++ [a, b]) ++ todo1 := by
        simp
      have step := ih (i + 1) (pre ++ [a, b]) todo1 hrest h2 hl
      rw [marshalLoop_cons, vecWrite_append pre (t1 :: todo1) t0 a (i * 2) hpre,
        Option.some_bind, e1, vecWrite_append (pre ++ [a]) todo1 t1 b (i * 2 + 1) h1,
        Option.some_bind, e2, step]
      have hd : List.drop (2 * (rest.length + 1)) (t0 :: t1 :: todo1)
          = List.drop (2 * rest.length) todo1 := by
        have : 2 * (rest.length + 1) = 2 * rest.length + 1 + 1 := by omega
        rw [this, List.drop_succ_cons, List.drop_succ_cons]
      simp [specObservation, hd]

theorem marshalLoop_zeros (x : List vpColVector) (npoints : Nat)
    (hO : ObservedOk x) (hlen : x.length ≤ npoints) :
    marshalLoop x 0 (vpColVector.zeros (npoints * 2)) =
      some (specObservation x ++ vpColVector.zeros (2 * (npoints - x.length))) := by
  have h := marshalLoop_append x 0 [] (vpColVector.zeros (npoints * 2)) hO rfl
    (by simp [vpColVector.zeros]; omega)
  have hd : List.drop (2 * x.length) (vpColVector.zeros (npoints * 2))
      = vpColVector.zeros (2 * (npoints - x.length)) := by
    simp only [vpColVector.zeros, List.drop_replicate]
    congr 1
    omega
  rw [hd] at h
  simpa using h

theorem marshalLoop_exact (x : List vpColVector) (npoints : Nat)
    (hO : ObservedOk x) (hlen : x.length = npoints) :
    marshalLoop x 0 (vpColVector.zeros (npoints * 2)) = some (specObservation x) := by
  rw [marshalLoop_zeros x npoints hO (le_of_eq hlen), hlen]
  simp [vpColVector.zeros]

theorem specObservation_length (x : List vpColVector) :
    (specObservation x).length = 2 * x.length := by
  induction x with
  | nil => rfl
  | cons xi rest ih => simp [specObservation, ih]; omega

/-! ## One iteration -/

theorem dotProduct_scale (k : ℚ) (row : List ℚ) :
    ∀ v : List ℚ, dotProduct (row.map (fun a => k * a)) v = k * dotProduct row v := by
  induction row with
  | nil => intro v; simp [dotProduct]
  | cons a rest ih =>
    intro v
    cases v with
    | nil => simp [dotProduct]
    | cons b vs =>
      have h := ih vs
      simp only [dotProduct, List.map_cons, List.zipWith_cons_cons, List.sum_cons] at h ⊢
      rw [h]
      ring

theorem mulVec_scale (k : ℚ) (M : vpMatrix) (v : vpColVector) :
    (M.scale k).mulVec v = (M.mulVec v).map (fun a => k * a) := by
  simp only [vpMatrix.scale, vpMatrix.mulVec, List.map_map]
  apply List.map_congr_left
  intro row _
  exact dotProduct_scale k row v

theorem lambda_eq : -lambda = -(1 / 4) := rfl

theorem loopBody_eq (c : Collaborators) (wX : List vpColVector) (xn : vpColVector)
    (s : LoopState) (hW : WorldOk wX) (hS : Shaped wX.length s) :
    loopBody c wX xn s =
      some ⟨specNext c wX xn s, specResidual s.cTw_ wX xn, specTwist c wX xn s.cTw_,
        s.residual⟩ := by
  unfold loopBody
  rw [pointLoop_shaped wX s hW hS]
  simp only [Option.bind_eq_bind, Option.some_bind, mulVec_scale, lambda_eq]
  rfl

theorem specJacobian_length (cTw : vpHomogeneousMatrix) (wX : List vpColVector) :
    (specJacobian cTw wX).length = 2 * wX.length := by
  induction wX with
  | nil => rfl
  | cons w rest ih => simp only [specJacobian, List.length_cons, ih]; omega

theorem specJacobian_rows (cTw : vpHomogeneousMatrix) (wX : List vpColVector) :
    ∀ row ∈ specJacobian cTw wX, row.length = 6 := by
  induction wX with
  | nil => intro row h; simp [specJacobian] at h
  | cons w rest ih =>
    intro row h
    simp only [specJacobian, List.mem_cons] at h
    rcases h with h | h | h
    · rw [h]; rfl
    · rw [h]; rfl
    · exact ih row h

theorem specProjection_length (cTw : vpHomogeneousMatrix) (wX : List vpColVector) :
    (specProjection cTw wX).length = 2 * wX.length := by
  induction wX with
  | nil => rfl
  | cons w rest ih => simp only [specProjection, List.length_cons, ih]; omega

theorem specNext_shaped (c : Collaborators) (wX : List vpColVector) (xn : vpColVector)
    (s : LoopState) : Shaped wX.length (specNext c wX xn s) :=
  ⟨specJacobian_length _ _, specJacobian_rows _ _, specProjection_length _ _⟩

theorem initState_shaped (npoints : Nat) (cTw : vpHomogeneousMatrix) :
    Shaped npoints (initState npoints cTw) := by
  refine ⟨?_, ?_, ?_⟩
  · simp [initState, vpMatrix.zeros]
  · intro row h
    simp only [initState, vpMatrix.zeros] at h
    rw [List.eq_of_mem_replicate h]
    simp
  · simp [initState, vpColVector.zeros]; omega

theorem iterate_shaped (c : Collaborators) (wX : List vpColVector) (xn : vpColVector)
    (s : LoopState) (hS : Shaped wX.length s) (k : Nat) :
    Shaped wX.length ((specNext c wX xn)^[k] s) := by
  cases k with
  | zero => exact hS
  | succ k =>
    rw [Function.iterate_succ_apply']
    exact specNext_shaped c wX xn _

theorem iterateBody_eq (c : Collaborators) (wX : List vpColVector) (xn : vpColVector)
    (s : LoopState) (hW : WorldOk wX) (hS : Shaped wX.length s) (k : Nat) :
    iterateBody c wX xn k s = some ((specNext c wX xn)^[k] s) := by
  induction k with
  | zero => rfl
  | succ k ih =>
    rw [iterateBody, ih]
    simp only []
    rw [loopBody_eq c wX xn _ hW (iterate_shaped c wX xn s hS k), Function.iterate_succ_apply']

/-! ## The stopping rule -/

theorem doWhile_succ (c : Collaborators) (wX : List vpColVector) (xn : vpColVector)
    (s : LoopState) (hW : WorldOk wX) (hS : Shaped wX.length s) (fuel : Nat) :
    doWhile c wX xn (fuel + 1) s =
      if loopCond (specNext c wX xn s).residual s.residual
      then doWhile c wX xn fuel (specNext c wX xn s)
      else Outcome.returned (specNext c wX xn s).cTw_ := by
  rw [doWhile, loopBody_eq c wX xn s hW hS]

theorem loopCond_eq (a b : ℚ) : loopCond a b = decide (|a - b| > 0) := by
  simp only [loopCond, loopCondDbl, Dbl.sub, Dbl.neg, Dbl.add, Dbl.fabs, Dbl.gt,
    sub_eq_add_neg]

theorem loopCond_eq_true_iff (a b : ℚ) : loopCond a b = true ↔ a ≠ b := by
  simp [loopCond_eq, sub_eq_zero]

theorem loopCond_self (a : ℚ) : loopCond a a = false := by
  simp [loopCond_eq]

theorem doWhile_running_iff (c : Collaborators) (wX : List vpColVector) (xn : vpColVector)
    (hW : WorldOk wX) (fuel : Nat) :
    ∀ s : LoopState, Shaped wX.length s →
      (doWhile c wX xn fuel s = Outcome.running ↔
        ∀ j, j < fuel → ((specNext c wX xn)^[j + 1] s).residual
          ≠ ((specNext c wX xn)^[j] s).residual) := by
  induction fuel with
  | zero =>
    intro s _
    simp [doWhile]
  | succ fuel ih =>
    intro s hS
    rw [doWhile_succ c wX xn s hW hS]
    by_cases hc : (specNext c wX xn s).residual ≠ s.residual
    · rw [if_pos ((loopCond_eq_true_iff _ _).mpr hc), ih _ (specNext_shaped c wX xn s)]
      constructor
      · intro h j hj
        cases j with
        | zero => exact hc
        | succ j => exact h j (by omega)
      · intro h j hj
        exact h (j + 1) (by omega)
    · have hc2 : ¬ (loopCond (specNext c wX xn s).residual s.residual = true) :=
        fun h => hc ((loopCond_eq_true_iff _ _).mp h)
      rw [if_neg hc2]
      constructor
      · intro h
        cases h
      · intro h
        exact absurd (h 0 (by omega)) hc

theorem doWhile_returned_iff (c : Collaborators) (wX : List vpColVector) (xn : vpColVector)
    (hW : WorldOk wX) (p : vpHomogeneousMatrix) (fuel : Nat) :
    ∀ s : LoopState, Shaped wX.length s →
      (doWhile c wX xn fuel s = Outcome.returned p ↔
        ∃ k, k < fuel ∧
          ((specNext c wX xn)^[k + 1] s).residual = ((specNext c wX xn)^[k] s).residual ∧
          (∀ j, j < k → ((specNext c wX xn)^[j + 1] s).residual
            ≠ ((specNext c wX xn)^[j] s).residual) ∧
          p = ((specNext c wX xn)^[k + 1] s).cTw_) := by
  induction fuel with
  | zero =>
    intro s _
    simp [doWhile]
  | succ fuel ih =>
    intro s hS
    rw [doWhile_succ c wX xn s hW hS]
    by_cases hc : (specNext c wX xn s).residual ≠ s.residual
    · rw [if_pos ((loopCond_eq_true_iff _ _).mpr hc), ih _ (specNext_shaped c wX xn s)]
      constructor
      · rintro ⟨k, hk, heq, hne, hp⟩
        refine ⟨k + 1, by omega, heq, ?_, hp⟩
        intro j hj
        cases j with
        | zero => exact hc
        | succ j => exact hne j (by omega)
      · rintro ⟨k, hk, heq, hne, hp⟩
        cases k with
        | zero => exact absurd heq hc
        | succ k =>
          exact ⟨k, by omega, heq, fun j hj => hne (j + 1) (by omega), hp⟩
    · have hc2 : ¬ (loopCond (specNext c wX xn s).residual s.residual = true) :=
        fun h => hc ((loopCond_eq_true_iff _ _).mp h)
      have hc3 : (specNext c wX xn s).residual = s.residual := not_not.mp hc
      rw [if_neg hc2]
      constructor
      · intro h
        have hp : (specNext c wX xn s).cTw_ = p := by
          injection h
        exact ⟨0, by omega, hc3, fun j hj => absurd hj (Nat.not_lt_zero j), hp.symm⟩
      · rintro ⟨k, _, heq, hne, hp⟩
        cases k with
        | zero => rw [hp]; rfl
        | succ k => exact absurd hc3 (hne 0 (by omega))

theorem doWhile_returned_mono (c : Collaborators) (wX : List vpColVector) (xn : vpColVector)
    (hW : WorldOk wX) (p : vpHomogeneousMatrix) (fuel more : Nat) (hle : fuel ≤ more)
    (s : LoopState) (hS : Shaped wX.length s)
    (h : doWhile c wX xn fuel s = Outcome.returned p) :
    doWhile c wX xn more s = Outcome.returned p := by
  rw [doWhile_returned_iff c wX xn hW p fuel s hS] at h
  rw [doWhile_returned_iff c wX xn hW p more s hS]
  obtain ⟨k, hk, rest⟩ := h
  exact ⟨k, by omega, rest⟩

theorem doWhile_ne_fault (c : Collaborators) (wX : List vpColVector) (xn : vpColVector)
    (hW : WorldOk wX) (fuel : Nat) :
    ∀ s : LoopState, Shaped wX.length s → doWhile c wX xn fuel s ≠ Outcome.fault := by
  induction fuel with
  | zero =>
    intro s _ h
    simp [doWhile] at h
  | succ fuel ih =>
    intro s hS
    rw [doWhile_succ c wX xn s hW hS]
    split
    · exact ih _ (specNext_shaped c wX xn s)
    · intro h
      cases h

/-! ## The whole call -/

theorem pose_gauss_newton_eq (c : Collaborators) (fuel : Nat) (wX x : List vpColVector)
    (cTw : vpHomogeneousMatrix) (hO : ObservedOk x) (hlen : x.length = wX.length) :
    pose_gauss_newton c fuel wX x cTw =
      doWhile c wX (specObservation x) fuel (initState wX.length cTw) := by
  unfold pose_gauss_newton
  simp only [marshalLoop_exact x wX.length hO hlen]

theorem stateAfter_eq (c : Collaborators) (wX x : List vpColVector)
    (cTw : vpHomogeneousMatrix) (hW : WorldOk wX) (hO : ObservedOk x)
    (hlen : x.length = wX.length) (k : Nat) :
    stateAfter c wX x cTw k =
      some ((specNext c wX (specObservation x))^[k] (initState wX.length cTw)) := by
  unfold stateAfter
  simp only [marshalLoop_exact x wX.length hO hlen]
  exact iterateBody_eq c wX _ _ hW (initState_shaped _ _) k

theorem iterationAt_eq (c : Collaborators) (wX x : List vpColVector)
    (cTw : vpHomogeneousMatrix) (hW : WorldOk wX) (hO : ObservedOk x)
    (hlen : x.length = wX.length) (k : Nat) :
    iterationAt c wX x cTw k =
      some ⟨(specNext c wX (specObservation x))^[k + 1] (initState wX.length cTw),
        specResidual ((specNext c wX (specObservation x))^[k] (initState wX.length cTw)).cTw_
          wX (specObservation x),
        specTwist c wX (specObservation x)
          ((specNext c wX (specObservation x))^[k] (initState wX.length cTw)).cTw_,
        ((specNext c wX (specObservation x))^[k] (initState wX.length cTw)).residual⟩ := by
  unfold iterationAt
  simp only [marshalLoop_exact x wX.length hO hlen]
  unfold iterationFrom
  rw [iterateBody_eq c wX _ _ hW (initState_shaped _ _) k]
  simp only []
  rw [loopBody_eq c wX _ _ hW (iterate_shaped c wX _ _ (initState_shaped _ _) k),
    Function.iterate_succ_apply']

/-! ## Entries of the stacked buffers -/

theorem specJacobian_getElem (cTw : vpHomogeneousMatrix) (wX : List vpColVector) :
    ∀ (i : Nat) (w : vpColVector) (X Y Z W : ℚ), wX[i]? = some w →
      cTw.mulColVector w = some [X, Y, Z, W] →
      (specJacobian cTw wX)[2 * i]? = some (specRowX X Y Z) ∧
      (specJacobian cTw wX)[2 * i + 1]? = some (specRowY X Y Z) := by
  induction wX with
  | nil => intro i w X Y Z W h; simp at h
  | cons v rest ih =>
    intro i w X Y Z W h hcX
    cases i with
    | zero =>
      simp only [List.getElem?_cons_zero, Option.some.injEq] at h
      subst h
      rw [specJacobian_cons cTw v rest X Y Z W hcX]
      exact ⟨List.getElem?_cons_zero, List.getElem?_cons_succ.trans List.getElem?_cons_zero⟩
    | succ i =>
      simp only [List.getElem?_cons_succ] at h
      have e1 : 2 * (i + 1) = 2 * i + 1 + 1 := by omega
      rw [specJacobian, e1, List.getElem?_cons_succ, List.getElem?_cons_succ,
        List.getElem?_cons_succ, List.getElem?_cons_succ]
      exact ih i w X Y Z W h hcX

theorem specProjection_getElem (cTw : vpHomogeneousMatrix) (wX : List vpColVector) :
    ∀ (i : Nat) (w : vpColVector) (X Y Z W : ℚ), wX[i]? = some w →
      cTw.mulColVector w = some [X, Y, Z, W] →
      (specProjection cTw wX)[2 * i]? = some (X / Z) ∧
      (specProjection cTw wX)[2 * i + 1]? = some (Y / Z) := by
  induction wX with
  | nil => intro i w X Y Z W h; simp at h
  | cons v rest ih =>
    intro i w X Y Z W h hcX
    cases i with
    | zero =>
      simp only [List.getElem?_cons_zero, Option.some.injEq] at h
      subst h
      rw [specProjection_cons cTw v rest X Y Z W hcX]
      exact ⟨List.getElem?_cons_zero, List.getElem?_cons_succ.trans List.getElem?_cons_zero⟩
    | succ i =>
      simp only [List.getElem?_cons_succ] at h
      have e1 : 2 * (i + 1) = 2 * i + 1 + 1 := by omega
      rw [specProjection, e1, List.getElem?_cons_succ, List.getElem?_cons_succ,
        List.getElem?_cons_succ, List.getElem?_cons_succ]
      exact ih i w X Y Z W h hcX

theorem specObservation_getElem (x : List vpColVector) :
    ∀ (i : Nat) (a b : ℚ) (tl : List ℚ), x[i]? = some (a :: b :: tl) →
      (specObservation x)[2 * i]? = some a ∧ (specObservation x)[2 * i + 1]? = some b := by
  induction x with
  | nil => intro i a b tl h; simp at h
  | cons v rest ih =>
    intro i a b tl h
    cases i with
    | zero =>
      simp only [List.getElem?_cons_zero, Option.some.injEq] at h
      subst h
      exact ⟨List.getElem?_cons_zero, List.getElem?_cons_succ.trans List.getElem?_cons_zero⟩
    | succ i =>
      simp only [List.getElem?_cons_succ] at h
      have e1 : 2 * (i + 1) = 2 * i + 1 + 1 := by omega
      rw [specObservation, e1, List.getElem?_cons_succ, List.getElem?_cons_succ,
        List.getElem?_cons_succ, List.getElem?_cons_succ]
      exact ih i a b tl h

theorem sub_getElem (u v : vpColVector) (i : Nat) (a b : ℚ)
    (hu : u[i]? = some a) (hv : v[i]? = some b) :
    (vpColVector.sub u v)[i]? = some (a - b) := by
  unfold vpColVector.sub
  rw [List.getElem?_zipWith, hu, hv]

theorem specObservation_take (x : List vpColVector) :
    specObservation (x.map (List.take 2)) = specObservation x := by
  induction x with
  | nil => rfl
  | cons xi rest ih =>
    have h0 : (List.take 2 xi).getD 0 0 = xi.getD 0 0 := by
      match xi with
      | [] => rfl
      | [_] => rfl
      | _ :: _ :: _ => rfl
    have h1 : (List.take 2 xi).getD 1 0 = xi.getD 1 0 := by
      match xi with
      | [] => rfl
      | [_] => rfl
      | _ :: _ :: _ => rfl
    rw [List.map_cons, specObservation, specObservation, ih, h0, h1]

theorem observedOk_take (x : List vpColVector) :
    ObservedOk (x.map (List.take 2)) ↔ ObservedOk x := by
  unfold ObservedOk
  simp only [List.mem_map, forall_exists_index, and_imp, forall_apply_eq_imp_iff₂,
    List.length_take]
  constructor
  · intro h xi hxi
    have := h xi hxi
    omega
  · intro h xi hxi
    have := h xi hxi
    omega

theorem sceneWorld_ok : WorldOk sceneWorld := by
  intro w hw
  simp only [sceneWorld, List.mem_singleton] at hw
  rw [hw]
  rfl

theorem sceneObserved_ok : ObservedOk sceneObserved := by
  intro xi hxi
  simp only [sceneObserved, List.mem_singleton] at hxi
  rw [hxi]
  simp

/-! ## The specification, claim by claim -/

/-- C1: in every iteration, for every point index `i` whose camera-frame
point `(X, Y, Z) = pose · worldPoint_i` has `Z ≠ 0`, row `2i` of the Jacobian
built by `pose_gauss_newton` is `[-1/Z, 0, x/Z, x·y, -(1+x²), y]` and row
`2i+1` is `[0, -1/Z, y/Z, 1+y², -x·y, -x]`, with `x = X/Z` and `y = Y/Z`. -/
theorem jacobian_row_layout (c : Collaborators) (wX x : List vpColVector)
    (cTw : vpHomogeneousMatrix) (hW : WorldOk wX) (hO : ObservedOk x)
    (hlen : x.length = wX.length) (k : Nat) :
    ∃ s it, stateAfter c wX x cTw k = some s ∧ iterationAt c wX x cTw k = some it ∧
      (k = 0 → s.cTw_ = cTw) ∧
      ∀ (i : Nat) (w : vpColVector) (X Y Z W : ℚ), wX[i]? = some w →
        s.cTw_.mulColVector w = some [X, Y, Z, W] → Z ≠ 0 →
        it.next.J[2 * i]? =
          some [-1 / Z, 0, (X / Z) / Z, (X / Z) * (Y / Z), -(1 + (X / Z) * (X / Z)), Y / Z] ∧
        it.next.J[2 * i + 1]? =
          some [0, -1 / Z, (Y / Z) / Z, 1 + (Y / Z) * (Y / Z), -((X / Z) * (Y / Z)), -(X / Z)] := by
  refine ⟨_, _, stateAfter_eq c wX x cTw hW hO hlen k, iterationAt_eq c wX x cTw hW hO hlen k,
    ?_, ?_⟩
  · intro hk
    subst hk
    rfl
  · intro i w X Y Z W hw hcX _
    rw [Function.iterate_succ_apply']
    have h := specJacobian_getElem _ wX i w X Y Z W hw hcX
    refine ⟨h.1, ?_⟩
    rw [← neg_mul]
    exact h.2

/-- Witness for C1 on the one-point scene. -/
theorem jacobian_row_layout_witness :
    WorldOk sceneWorld ∧ ObservedOk sceneObserved ∧ sceneObserved.length = sceneWorld.length ∧
    ∃ s it, stateAfter frozenCollaborators sceneWorld sceneObserved vpHomogeneousMatrix.identity 0
        = some s ∧
      iterationAt frozenCollaborators sceneWorld sceneObserved vpHomogeneousMatrix.identity 0
        = some it ∧
      (0 = 0 → s.cTw_ = vpHomogeneousMatrix.identity) ∧
      ∀ (i : Nat) (w : vpColVector) (X Y Z W : ℚ), sceneWorld[i]? = some w →
        s.cTw_.mulColVector w = some [X, Y, Z, W] → Z ≠ 0 →
        it.next.J[2 * i]? =
          some [-1 / Z, 0, (X / Z) / Z, (X / Z) * (Y / Z), -(1 + (X / Z) * (X / Z)), Y / Z] ∧
        it.next.J[2 * i + 1]? =
          some [0, -1 / Z, (Y / Z) / Z, 1 + (Y / Z) * (Y / Z), -((X / Z) * (Y / Z)), -(X / Z)] :=
  ⟨sceneWorld_ok, sceneObserved_ok, rfl,
    jacobian_row_layout frozenCollaborators sceneWorld sceneObserved vpHomogeneousMatrix.identity
      sceneWorld_ok sceneObserved_ok rfl 0⟩

/-- C2: in every iteration the residual vector `e_q` of `N` correspondences
has `2N` entries; entry `2i` is `X_i/Z_i - observed_x_i` and entry `2i+1` is
`Y_i/Z_i - observed_y_i` for every point of depth `Z_i ≠ 0`; observations
that agree on their first two components give the same iteration, so the
third component of an observed point has no influence. -/
theorem residual_entries (c : Collaborators) (wX x : List vpColVector)
    (cTw : vpHomogeneousMatrix) (hW : WorldOk wX) (hO : ObservedOk x)
    (hlen : x.length = wX.length) (k : Nat) :
    ∃ s it, stateAfter c wX x cTw k = some s ∧ iterationAt c wX x cTw k = some it ∧
      (k = 0 → s.cTw_ = cTw) ∧
      it.e_q.length = 2 * wX.length ∧
      (∀ (i : Nat) (w : vpColVector) (a b : ℚ) (tl : List ℚ) (X Y Z W : ℚ),
        wX[i]? = some w → x[i]? = some (a :: b :: tl) →
        s.cTw_.mulColVector w = some [X, Y, Z, W] → Z ≠ 0 →
        it.e_q[2 * i]? = some (X / Z - a) ∧ it.e_q[2 * i + 1]? = some (Y / Z - b)) ∧
      (∀ x2 : List vpColVector, x2.map (List.take 2) = x.map (List.take 2) →
        iterationAt c wX x2 cTw k = some it) := by
  refine ⟨_, _, stateAfter_eq c wX x cTw hW hO hlen k, iterationAt_eq c wX x cTw hW hO hlen k,
    ?_, ?_, ?_, ?_⟩
  · intro hk
    subst hk
    rfl
  · simp only [specResidual, vpColVector.sub, List.length_zipWith, specProjection_length,
      specObservation_length, hlen]
    omega
  · intro i w a b tl X Y Z W hw hx hcX _
    have hp := specProjection_getElem _ wX i w X Y Z W hw hcX
    have ho := specObservation_getElem x i a b tl hx
    exact ⟨sub_getElem _ _ _ _ _ hp.1 ho.1, sub_getElem _ _ _ _ _ hp.2 ho.2⟩
  · intro x2 h2
    have hO2 : ObservedOk x2 := by
      rw [← observedOk_take, h2, observedOk_take]
      exact hO
    have hlen2 : x2.length = wX.length := by
      have := congrArg List.length h2
      simpa [hlen] using this
    have hobs : specObservation x2 = specObservation x := by
      rw [← specObservation_take x2, h2, specObservation_take]
    rw [iterationAt_eq c wX x2 cTw hW hO2 hlen2 k, hobs]

/-- Witness for C2 on the one-point scene. -/
theorem residual_entries_witness :
    WorldOk sceneWorld ∧ ObservedOk sceneObserved ∧ sceneObserved.length = sceneWorld.length ∧
    ∃ s it, stateAfter frozenCollaborators sceneWorld sceneObserved vpHomogeneousMatrix.identity 0
        = some s ∧
      iterationAt frozenCollaborators sceneWorld sceneObserved vpHomogeneousMatrix.identity 0
        = some it ∧
      (0 = 0 → s.cTw_ = vpHomogeneousMatrix.identity) ∧
      it.e_q.length = 2 * sceneWorld.length ∧
      (∀ (i : Nat) (w : vpColVector) (a b : ℚ) (tl : List ℚ) (X Y Z W : ℚ),
        sceneWorld[i]? = some w → sceneObserved[i]? = some (a :: b :: tl) →
        s.cTw_.mulColVector w = some [X, Y, Z, W] → Z ≠ 0 →
        it.e_q[2 * i]? = some (X / Z - a) ∧ it.e_q[2 * i + 1]? = some (Y / Z - b)) ∧
      (∀ x2 : List vpColVector, x2.map (List.take 2) = sceneObserved.map (List.take 2) →
        iterationAt frozenCollaborators sceneWorld x2 vpHomogeneousMatrix.identity 0 = some it) :=
  ⟨sceneWorld_ok, sceneObserved_ok, rfl,
    residual_entries frozenCollaborators sceneWorld sceneObserved vpHomogeneousMatrix.identity
      sceneWorld_ok sceneObserved_ok rfl 0⟩

/-- C3: one pass of the loop body started at pose `P` rebuilds the Jacobian
`J(P)` and the residual `e(P)` at `P`, computes `twist = -0.25 · pinv(J(P)) ·
e(P)` with the same gain `0.25` in every iteration, and replaces `P` by
`exp(twist)⁻¹ · P`; the next pass starts from exactly that pose. -/
theorem gauss_newton_update (c : Collaborators) (wX x : List vpColVector)
    (cTw : vpHomogeneousMatrix) (hW : WorldOk wX) (hO : ObservedOk x)
    (hlen : x.length = wX.length) (k : Nat) :
    ∃ s it, stateAfter c wX x cTw k = some s ∧ iterationAt c wX x cTw k = some it ∧
      (k = 0 → s.cTw_ = cTw) ∧
      stateAfter c wX x cTw (k + 1) = some it.next ∧
      it.next.J = specJacobian s.cTw_ wX ∧
      it.e_q = specResidual s.cTw_ wX (specObservation x) ∧
      it.dq = (vpMatrix.mulVec (c.pseudoInverse it.next.J) it.e_q).map (fun a => -(1 / 4) * a) ∧
      it.next.cTw_ = ((c.direct it.dq).inverse).mul s.cTw_ := by
  refine ⟨_, _, stateAfter_eq c wX x cTw hW hO hlen k, iterationAt_eq c wX x cTw hW hO hlen k,
    ?_, stateAfter_eq c wX x cTw hW hO hlen (k + 1), ?_, rfl, ?_, ?_⟩
  · intro hk
    subst hk
    rfl
  · rw [Function.iterate_succ_apply']
    rfl
  · simp only [Function.iterate_succ_apply']
    rfl
  · simp only [Function.iterate_succ_apply']
    rfl

/-- Witness for C3 on the one-point scene. -/
theorem gauss_newton_update_witness :
    WorldOk sceneWorld ∧ ObservedOk sceneObserved ∧ sceneObserved.length = sceneWorld.length ∧
    ∃ s it, stateAfter frozenCollaborators sceneWorld sceneObserved vpHomogeneousMatrix.identity 3
        = some s ∧
      iterationAt frozenCollaborators sceneWorld sceneObserved vpHomogeneousMatrix.identity 3
        = some it ∧
      (3 = 0 → s.cTw_ = vpHomogeneousMatrix.identity) ∧
      stateAfter frozenCollaborators sceneWorld sceneObserved vpHomogeneousMatrix.identity (3 + 1)
        = some it.next ∧
      it.next.J = specJacobian s.cTw_ sceneWorld ∧
      it.e_q = specResidual s.cTw_ sceneWorld (specObservation sceneObserved) ∧
      it.dq = (vpMatrix.mulVec (frozenCollaborators.pseudoInverse it.next.J) it.e_q).map
        (fun a => -(1 / 4) * a) ∧
      it.next.cTw_ = ((frozenCollaborators.direct it.dq).inverse).mul s.cTw_ :=
  ⟨sceneWorld_ok, sceneObserved_ok, rfl,
    gauss_newton_update frozenCollaborators sceneWorld sceneObserved vpHomogeneousMatrix.identity
      sceneWorld_ok sceneObserved_ok rfl 3⟩

/-! ## Starting at a solution -/

theorem exactObservations_cons (cTw : vpHomogeneousMatrix) (w xi : vpColVector)
    (wX x : List vpColVector) (h : ExactObservations cTw (w :: wX) (xi :: x)) :
    ∃ X Y Z W a b tl, cTw.mulColVector w = some [X, Y, Z, W] ∧ xi = a :: b :: tl ∧
      Z ≠ 0 ∧ X / Z = a ∧ Y / Z = b ∧ ExactObservations cTw wX x := by
  unfold ExactObservations at h
  obtain ⟨hm, hrest⟩ := h
  unfold ExactPoint at hm
  split at hm
  · next X Y Z W a b tl hcX =>
    exact ⟨X, Y, Z, W, a, b, tl, hcX, rfl, hm.1, hm.2.1, hm.2.2, hrest⟩
  · exact absurd hm id

theorem mulColVector_length (cTw : vpHomogeneousMatrix) (w r : vpColVector)
    (h : cTw.mulColVector w = some r) : w.length = 4 := by
  unfold vpHomogeneousMatrix.mulColVector at h
  split at h
  · rfl
  · cases h

theorem exactObservations_spec (cTw : vpHomogeneousMatrix) (wX : List vpColVector) :
    ∀ x : List vpColVector, ExactObservations cTw wX x →
      WorldOk wX ∧ ObservedOk x ∧ x.length = wX.length ∧
      specProjection cTw wX = specObservation x := by
  induction wX with
  | nil =>
    intro x h
    cases x with
    | nil =>
      refine ⟨?_, ?_, rfl, rfl⟩
      · intro w hw
        cases hw
      · intro xi hxi
        cases hxi
    | cons xi x => exact absurd h (by simp [ExactObservations])
  | cons w wX ih =>
    intro x h
    cases x with
    | nil => exact absurd h (by simp [ExactObservations])
    | cons xi x =>
      obtain ⟨X, Y, Z, W, a, b, tl, hcX, hxi, _, hX, hY, hrest⟩ :=
        exactObservations_cons cTw w xi wX x h
      obtain ⟨hW, hO, hlen, hproj⟩ := ih x hrest
      refine ⟨?_, ?_, ?_, ?_⟩
      · intro v hv
        rcases List.mem_cons.mp hv with hv | hv
        · rw [hv]
          exact mulColVector_length cTw w _ hcX
        · exact hW v hv
      · intro v hv
        rcases List.mem_cons.mp hv with hv | hv
        · rw [hv, hxi]
          simp
        · exact hO v hv
      · simp [hlen]
      · rw [specProjection_cons cTw w wX X Y Z W hcX, hproj, hX, hY, hxi]
        rfl

theorem sub_self_zeros (v : vpColVector) : vpColVector.sub v v = List.replicate v.length 0 := by
  induction v with
  | nil => rfl
  | cons a rest ih =>
    unfold vpColVector.sub at ih ⊢
    rw [List.zipWith_cons_cons, ih, sub_self]
    rfl

theorem identity_inverse : vpHomogeneousMatrix.identity.inverse = vpHomogeneousMatrix.identity := by
  simp [vpHomogeneousMatrix.inverse, vpHomogeneousMatrix.identity]

theorem identity_mul (P : vpHomogeneousMatrix) : vpHomogeneousMatrix.identity.mul P = P := by
  cases P
  simp [vpHomogeneousMatrix.mul, vpHomogeneousMatrix.identity]

/-- C6: idempotence at a fixed point.  When every observation is the exact
projection of its world point through the pose `P` (all depths non-zero), so
that the residual vector at `P` is zero, and given `pinv(J) · 0 = 0` for
every matrix `J` of six columns and `exp(0) = identity`, the single-iteration
update started at `P` computes the twist `0` and the new pose `P`. -/
theorem fixed_point_idempotent (c : Collaborators) (wX x : List vpColVector)
    (P : vpHomogeneousMatrix)
    (hpinv : ∀ J : vpMatrix, (∀ row ∈ J, row.length = 6) →
      vpMatrix.mulVec (c.pseudoInverse J) (List.replicate J.length 0) = List.replicate 6 0)
    (hexp : c.direct (List.replicate 6 0) = vpHomogeneousMatrix.identity)
    (hfix : ExactObservations P wX x) :
    ∃ it, iterationAt c wX x P 0 = some it ∧
      it.e_q = List.replicate (2 * wX.length) 0 ∧
      it.dq = List.replicate 6 0 ∧
      it.next.cTw_ = P := by
  obtain ⟨hW, hO, hlen, hproj⟩ := exactObservations_spec P wX x hfix
  have he : specResidual P wX (specObservation x) = List.replicate (2 * wX.length) 0 := by
    rw [specResidual, hproj, sub_self_zeros, specObservation_length, hlen]
  have hJ : (specJacobian P wX).length = 2 * wX.length := specJacobian_length P wX
  have hd : specTwist c wX (specObservation x) P = List.replicate 6 0 := by
    rw [specTwist, he, ← hJ, hpinv _ (specJacobian_rows P wX)]
    simp
  refine ⟨_, iterationAt_eq c wX x P hW hO hlen 0, he, hd, ?_⟩
  show specStep c wX (specObservation x) P = P
  rw [specStep, hd, hexp, identity_inverse, identity_mul]

/-- Witness for C6: the one-point scene seen from the identity pose. -/
theorem fixed_point_idempotent_witness :
    (∀ J : vpMatrix, (∀ row ∈ J, row.length = 6) →
      vpMatrix.mulVec (frozenCollaborators.pseudoInverse J)
        (List.replicate J.length 0) = List.replicate 6 0) ∧
    frozenCollaborators.direct (List.replicate 6 0) = vpHomogeneousMatrix.identity ∧
    ExactObservations vpHomogeneousMatrix.identity sceneWorld sceneObserved ∧
    ∃ it, iterationAt frozenCollaborators sceneWorld sceneObserved vpHomogeneousMatrix.identity 0
        = some it ∧
      it.e_q = List.replicate (2 * sceneWorld.length) 0 ∧
      it.dq = List.replicate 6 0 ∧
      it.next.cTw_ = vpHomogeneousMatrix.identity :=
  have h1 : ∀ J : vpMatrix, (∀ row ∈ J, row.length = 6) →
      vpMatrix.mulVec (frozenCollaborators.pseudoInverse J)
        (List.replicate J.length 0) = List.replicate 6 0 := by
    intro J _
    simp [frozenCollaborators, vpMatrix.mulVec, dotProduct]
  have h3 : ExactObservations vpHomogeneousMatrix.identity sceneWorld sceneObserved := by
    simp [ExactObservations, ExactPoint, sceneWorld, sceneObserved, vpHomogeneousMatrix.mulColVector,
      vpHomogeneousMatrix.identity]
    norm_num
  ⟨h1, rfl, h3,
    fixed_point_idempotent frozenCollaborators sceneWorld sceneObserved
      vpHomogeneousMatrix.identity h1 rfl h3⟩

/-- C7: for every point whose camera-frame coordinates under the current
pose are `(0, 0, Z)` with `Z ≠ 0`, the Jacobian row for `x` built by
`pose_gauss_newton` is `[-1/Z, 0, 0, 0, -1, 0]` and the row for `y` is
`[0, -1/Z, 0, 1, 0, 0]`. -/
theorem optical_axis_rows (c : Collaborators) (wX x : List vpColVector)
    (cTw : vpHomogeneousMatrix) (hW : WorldOk wX) (hO : ObservedOk x)
    (hlen : x.length = wX.length) (k : Nat) :
    ∃ s it, stateAfter c wX x cTw k = some s ∧ iterationAt c wX x cTw k = some it ∧
      (k = 0 → s.cTw_ = cTw) ∧
      ∀ (i : Nat) (w : vpColVector) (Z W : ℚ), wX[i]? = some w →
        s.cTw_.mulColVector w = some [0, 0, Z, W] → Z ≠ 0 →
        it.next.J[2 * i]? = some [-1 / Z, 0, 0, 0, -1, 0] ∧
        it.next.J[2 * i + 1]? = some [0, -1 / Z, 0, 1, 0, 0] := by
  refine ⟨_, _, stateAfter_eq c wX x cTw hW hO hlen k, iterationAt_eq c wX x cTw hW hO hlen k,
    ?_, ?_⟩
  · intro hk
    subst hk
    rfl
  · intro i w Z W hw hcX _
    rw [Function.iterate_succ_apply']
    have h := specJacobian_getElem _ wX i w 0 0 Z W hw hcX
    have hx : specRowX 0 0 Z = [-1 / Z, 0, 0, 0, -1, 0] := by
      simp [specRowX]
    have hy : specRowY 0 0 Z = [0, -1 / Z, 0, 1, 0, 0] := by
      simp [specRowY]
    rw [hx, hy] at h
    exact h

/-- Witness for C7: the point `(0, 0, 2)` seen from the identity pose. -/
theorem optical_axis_rows_witness :
    WorldOk axisWorld ∧ ObservedOk axisObserved ∧ axisObserved.length = axisWorld.length ∧
    ∃ s it, stateAfter frozenCollaborators axisWorld axisObserved vpHomogeneousMatrix.identity 0
        = some s ∧
      iterationAt frozenCollaborators axisWorld axisObserved vpHomogeneousMatrix.identity 0
        = some it ∧
      (0 = 0 → s.cTw_ = vpHomogeneousMatrix.identity) ∧
      ∀ (i : Nat) (w : vpColVector) (Z W : ℚ), axisWorld[i]? = some w →
        s.cTw_.mulColVector w = some [0, 0, Z, W] → Z ≠ 0 →
        it.next.J[2 * i]? = some [-1 / Z, 0, 0, 0, -1, 0] ∧
        it.next.J[2 * i + 1]? = some [0, -1 / Z, 0, 1, 0, 0] :=
  have hW : WorldOk axisWorld := by
    intro w hw
    simp only [axisWorld, List.mem_singleton] at hw
    rw [hw]
    rfl
  have hO : ObservedOk axisObserved := by
    intro xi hxi
    simp only [axisObserved, List.mem_singleton] at hxi
    rw [hxi]
    simp
  ⟨hW, hO, rfl,
    optical_axis_rows frozenCollaborators axisWorld axisObserved vpHomogeneousMatrix.identity
      hW hO rfl 0⟩

/-! ## Degenerate inputs -/

theorem sumSquare_zeros (n : Nat) : vpColVector.sumSquare (List.replicate n 0) = 0 := by
  simp [vpColVector.sumSquare]

theorem specNorm_exact (P : vpHomogeneousMatrix) (wX x : List vpColVector)
    (hfix : ExactObservations P wX x) : specNorm wX (specObservation x) P = 0 := by
  obtain ⟨_, _, _, hproj⟩ := exactObservations_spec P wX x hfix
  rw [specNorm, specResidual, hproj, sub_self_zeros, sumSquare_zeros]

theorem pose_gauss_newton_one (c : Collaborators) (wX x : List vpColVector)
    (cTw : vpHomogeneousMatrix) (hW : WorldOk wX) (hO : ObservedOk x)
    (hlen : x.length = wX.length) :
    pose_gauss_newton c 1 wX x cTw =
      if loopCond (specNorm wX (specObservation x) cTw) 0 then Outcome.running
      else Outcome.returned (specStep c wX (specObservation x) cTw) := by
  rw [pose_gauss_newton_eq c 1 wX x cTw hO hlen,
    doWhile_succ c wX _ _ hW (initState_shaped _ _) 0]
  rfl

theorem pose_gauss_newton_ne_fault (c : Collaborators) (wX x : List vpColVector)
    (cTw : vpHomogeneousMatrix) (hW : WorldOk wX) (hO : ObservedOk x)
    (hlen : x.length = wX.length) (fuel : Nat) :
    pose_gauss_newton c fuel wX x cTw ≠ Outcome.fault := by
  rw [pose_gauss_newton_eq c fuel wX x cTw hO hlen]
  exact doWhile_ne_fault c wX _ hW fuel _ (initState_shaped _ _)

theorem originWorld_ok : WorldOk originWorld := by
  intro w hw
  simp only [originWorld, List.mem_singleton] at hw
  rw [hw]
  rfl

theorem originObserved_ok : ObservedOk originObserved := by
  intro xi hxi
  simp only [originObserved, List.mem_singleton] at hxi
  rw [hxi]
  simp

theorem specNorm_origin :
    specNorm originWorld (specObservation originObserved) vpHomogeneousMatrix.identity = 0 := by
  simp [specNorm, specResidual, specProjection, specObservation, cameraPoint, originWorld,
    originObserved, vpHomogeneousMatrix.mulColVector, vpHomogeneousMatrix.identity,
    vpColVector.sub, vpColVector.sumSquare]

/-- C8, as stated, fails: the world point `(0, 0, 0)` has depth `Z = 0` under
the identity pose, the point loop on it runs to its end, divisions included,
and the call returns a pose after its first iteration, whatever the
collaborators compute. -/
theorem depth_zero_returns :
    vpHomogeneousMatrix.identity.mulColVector [0, 0, 0, 1] = some [0, 0, 0, 1] ∧
    (pointLoop vpHomogeneousMatrix.identity originWorld 0 (vpMatrix.zeros 2 6)
      (vpColVector.zeros 2)).isSome = true ∧
    ∀ c : Collaborators, ∃ p,
      pose_gauss_newton c 1 originWorld originObserved vpHomogeneousMatrix.identity
        = Outcome.returned p := by
  refine ⟨?_, ?_, ?_⟩
  · simp [vpHomogeneousMatrix.mulColVector, vpHomogeneousMatrix.identity]
  · have h := pointLoop_shaped originWorld (initState 1 vpHomogeneousMatrix.identity)
      originWorld_ok (initState_shaped _ _)
    have e : pointLoop vpHomogeneousMatrix.identity originWorld 0 (vpMatrix.zeros 2 6)
        (vpColVector.zeros 2) = pointLoop (initState 1 vpHomogeneousMatrix.identity).cTw_
          originWorld 0 (initState 1 vpHomogeneousMatrix.identity).J
          (initState 1 vpHomogeneousMatrix.identity).xq := rfl
    rw [e, h]
    rfl
  · intro c
    refine ⟨specStep c originWorld (specObservation originObserved)
      vpHomogeneousMatrix.identity, ?_⟩
    rw [pose_gauss_newton_one c originWorld originObserved _ originWorld_ok originObserved_ok rfl,
      specNorm_origin, loopCond_self]
    rfl

/-- C8, amended: `pose_gauss_newton` makes no depth check.  On `N` world
points of four entries and `N` observations of at least two, whatever the
depths of the transformed points, every pass of the loop body runs through
and the call never stops on a failure: it returns a pose or is still
iterating. -/
theorem no_depth_check (c : Collaborators) (wX x : List vpColVector)
    (cTw : vpHomogeneousMatrix) (hW : WorldOk wX) (hO : ObservedOk x)
    (hlen : x.length = wX.length) :
    (∀ k, ∃ it, iterationAt c wX x cTw k = some it) ∧
    ∀ fuel, (∃ p, pose_gauss_newton c fuel wX x cTw = Outcome.returned p) ∨
      pose_gauss_newton c fuel wX x cTw = Outcome.running := by
  constructor
  · intro k
    exact ⟨_, iterationAt_eq c wX x cTw hW hO hlen k⟩
  · intro fuel
    have h := pose_gauss_newton_ne_fault c wX x cTw hW hO hlen fuel
    cases hr : pose_gauss_newton c fuel wX x cTw with
    | returned p => exact Or.inl ⟨p, rfl⟩
    | fault => exact absurd hr h
    | running => exact Or.inr rfl

/-- Witness for the amended C8: the scene whose point has depth `Z = 0`. -/
theorem no_depth_check_witness :
    WorldOk originWorld ∧ ObservedOk originObserved ∧
    originObserved.length = originWorld.length ∧
    (∀ k, ∃ it, iterationAt frozenCollaborators originWorld originObserved
      vpHomogeneousMatrix.identity k = some it) ∧
    ∀ fuel, (∃ p, pose_gauss_newton frozenCollaborators fuel originWorld originObserved
        vpHomogeneousMatrix.identity = Outcome.returned p) ∨
      pose_gauss_newton frozenCollaborators fuel originWorld originObserved
        vpHomogeneousMatrix.identity = Outcome.running :=
  ⟨originWorld_ok, originObserved_ok, rfl,
    no_depth_check frozenCollaborators originWorld originObserved vpHomogeneousMatrix.identity
      originWorld_ok originObserved_ok rfl⟩

theorem worldOk_nil : WorldOk [] := by
  intro w hw
  cases hw

theorem observedOk_nil : ObservedOk [] := by
  intro xi hxi
  cases hxi

theorem triScene_exact :
    ExactObservations vpHomogeneousMatrix.identity triWorld triObserved := by
  simp [ExactObservations, ExactPoint, triWorld, triObserved, vpHomogeneousMatrix.mulColVector,
    vpHomogeneousMatrix.identity, Matrix.one_apply]

theorem scene_exact :
    ExactObservations vpHomogeneousMatrix.identity sceneWorld sceneObserved := by
  simp [ExactObservations, ExactPoint, sceneWorld, sceneObserved, vpHomogeneousMatrix.mulColVector,
    vpHomogeneousMatrix.identity]
  norm_num

/-- C9, as stated, fails: the empty correspondence set and a set of three
correspondences are both accepted, and the call returns a pose after its
first iteration. -/
theorem few_correspondences_returned :
    (∀ (c : Collaborators) (cTw : vpHomogeneousMatrix),
      pose_gauss_newton c 1 [] [] cTw = Outcome.returned (specStep c [] [] cTw)) ∧
    triWorld.length = 3 ∧
    ∀ c : Collaborators, ∃ p,
      pose_gauss_newton c 1 triWorld triObserved vpHomogeneousMatrix.identity
        = Outcome.returned p := by
  refine ⟨?_, rfl, ?_⟩
  · intro c cTw
    rw [pose_gauss_newton_one c [] [] cTw worldOk_nil observedOk_nil rfl]
    have h0 : specNorm [] (specObservation []) cTw = 0 := rfl
    rw [h0, loopCond_self]
    rfl
  · intro c
    obtain ⟨hW, hO, hlen, _⟩ := exactObservations_spec _ _ _ triScene_exact
    refine ⟨specStep c triWorld (specObservation triObserved) vpHomogeneousMatrix.identity, ?_⟩
    rw [pose_gauss_newton_one c triWorld triObserved _ hW hO hlen,
      specNorm_exact _ _ _ triScene_exact, loopCond_self]
    rfl

/-- C9, amended: `pose_gauss_newton` does not look at the number of
correspondences.  On an input of 3 or fewer correspondences (world points of
four entries, as many observations of at least two) it runs the same loop and
never stops on a failure: it returns a pose or is still iterating; on the
empty set it returns after the first iteration the pose retracted once. -/
theorem few_correspondences_accepted (c : Collaborators) (wX x : List vpColVector)
    (cTw : vpHomogeneousMatrix) (hW : WorldOk wX) (hO : ObservedOk x)
    (hlen : x.length = wX.length) (_ : wX.length ≤ 3) :
    (∀ fuel, (∃ p, pose_gauss_newton c fuel wX x cTw = Outcome.returned p) ∨
      pose_gauss_newton c fuel wX x cTw = Outcome.running) ∧
    (wX = [] → ∀ fuel,
      pose_gauss_newton c (fuel + 1) wX x cTw = Outcome.returned (specStep c [] [] cTw)) := by
  constructor
  · intro fuel
    have h := pose_gauss_newton_ne_fault c wX x cTw hW hO hlen fuel
    cases hr : pose_gauss_newton c fuel wX x cTw with
    | returned p => exact Or.inl ⟨p, rfl⟩
    | fault => exact absurd hr h
    | running => exact Or.inr rfl
  · intro hnil fuel
    subst hnil
    have hx : x = [] := List.length_eq_zero.mp hlen
    subst hx
    rw [pose_gauss_newton_eq c (fuel + 1) [] [] cTw hO rfl,
      doWhile_succ c [] _ _ hW (initState_shaped _ _) fuel]
    have h0 : (specNext c [] (specObservation []) (initState ([] : List vpColVector).length
        cTw)).residual = 0 := rfl
    have h1 : (initState ([] : List vpColVector).length cTw).residual = 0 := rfl
    rw [h0, h1, loopCond_self]
    rfl

/-- Witness for the amended C9: the scene of three correspondences. -/
theorem few_correspondences_accepted_witness :
    WorldOk triWorld ∧ ObservedOk triObserved ∧ triObserved.length = triWorld.length ∧
    triWorld.length ≤ 3 ∧
    (∀ fuel, (∃ p, pose_gauss_newton frozenCollaborators fuel triWorld triObserved
        vpHomogeneousMatrix.identity = Outcome.returned p) ∨
      pose_gauss_newton frozenCollaborators fuel triWorld triObserved
        vpHomogeneousMatrix.identity = Outcome.running) ∧
    (triWorld = [] → ∀ fuel,
      pose_gauss_newton frozenCollaborators (fuel + 1) triWorld triObserved
        vpHomogeneousMatrix.identity
        = Outcome.returned (specStep frozenCollaborators [] [] vpHomogeneousMatrix.identity)) :=
  have h := exactObservations_spec _ _ _ triScene_exact
  ⟨h.1, h.2.1, h.2.2.1, by decide,
    few_correspondences_accepted frozenCollaborators triWorld triObserved
      vpHomogeneousMatrix.identity h.1 h.2.1 h.2.2.1 (by decide)⟩

/-- C10, as stated, fails: on the one-point scene observed exactly from the
identity pose, the norm before the first iteration is 0, the norm of the
first iteration is 0, and the first stopping test, comparing the two, ends
the call. -/
theorem first_test_zero_against_zero :
    ∃ s0 s1,
      stateAfter frozenCollaborators sceneWorld sceneObserved vpHomogeneousMatrix.identity 0
        = some s0 ∧
      stateAfter frozenCollaborators sceneWorld sceneObserved vpHomogeneousMatrix.identity 1
        = some s1 ∧
      s0.residual = 0 ∧ s1.residual = 0 ∧
      pose_gauss_newton frozenCollaborators 0 sceneWorld sceneObserved
        vpHomogeneousMatrix.identity = Outcome.running ∧
      pose_gauss_newton frozenCollaborators 1 sceneWorld sceneObserved
        vpHomogeneousMatrix.identity = Outcome.returned s1.cTw_ := by
  refine ⟨_, _, stateAfter_eq frozenCollaborators _ _ _ sceneWorld_ok sceneObserved_ok rfl 0,
    stateAfter_eq frozenCollaborators _ _ _ sceneWorld_ok sceneObserved_ok rfl 1, rfl, ?_, ?_, ?_⟩
  · exact specNorm_exact _ _ _ scene_exact
  · rw [pose_gauss_newton_eq frozenCollaborators 0 sceneWorld sceneObserved _
      sceneObserved_ok rfl]
    rfl
  · rw [pose_gauss_newton_one frozenCollaborators sceneWorld sceneObserved _ sceneWorld_ok
      sceneObserved_ok rfl, specNorm_exact _ _ _ scene_exact, loopCond_self]
    rfl

/-! ## The sequence of poses -/

theorem iterate_pose (c : Collaborators) (wX : List vpColVector) (xn : vpColVector) (k : Nat) :
    ∀ s : LoopState, ((specNext c wX xn)^[k] s).cTw_ = (specStep c wX xn)^[k] s.cTw_ := by
  induction k with
  | zero => intro s; rfl
  | succ k ih =>
    intro s
    rw [Function.iterate_succ_apply, Function.iterate_succ_apply, ih]
    rfl

theorem iterate_residual (c : Collaborators) (wX : List vpColVector) (xn : vpColVector)
    (k : Nat) (s : LoopState) :
    ((specNext c wX xn)^[k + 1] s).residual = specNorm wX xn ((specStep c wX xn)^[k] s.cTw_) := by
  rw [Function.iterate_succ_apply', ← iterate_pose]
  rfl

/-- C11: the stopping test is first evaluated on the values of one full
iteration, and a returned pose is always the outcome of a retraction: with no
iteration allowed the call has not returned; after one iteration its outcome
is decided by the norm and the pose that this iteration computed; and
whenever the call returns `p`, some pass of the loop body, run on the pose
`P` held before it, built the twist `dq` and `p = exp(dq)⁻¹ · P`. -/
theorem one_iteration_before_return (c : Collaborators) (wX x : List vpColVector)
    (cTw : vpHomogeneousMatrix) (hW : WorldOk wX) (hO : ObservedOk x)
    (hlen : x.length = wX.length) :
    pose_gauss_newton c 0 wX x cTw = Outcome.running ∧
    (∃ it, iterationAt c wX x cTw 0 = some it ∧
      it.next.cTw_ = ((c.direct it.dq).inverse).mul cTw ∧
      pose_gauss_newton c 1 wX x cTw =
        if loopCond it.next.residual it.residual_prev then Outcome.running
        else Outcome.returned it.next.cTw_) ∧
    ∀ fuel p, pose_gauss_newton c fuel wX x cTw = Outcome.returned p →
      ∃ k s it, k < fuel ∧ stateAfter c wX x cTw k = some s ∧
        iterationAt c wX x cTw k = some it ∧
        p = it.next.cTw_ ∧ p = ((c.direct it.dq).inverse).mul s.cTw_ := by
  refine ⟨?_, ?_, ?_⟩
  · rw [pose_gauss_newton_eq c 0 wX x cTw hO hlen]
    rfl
  · refine ⟨_, iterationAt_eq c wX x cTw hW hO hlen 0, rfl, ?_⟩
    rw [pose_gauss_newton_one c wX x cTw hW hO hlen]
    rfl
  · intro fuel p hp
    rw [pose_gauss_newton_eq c fuel wX x cTw hO hlen,
      doWhile_returned_iff c wX _ hW p fuel _ (initState_shaped _ _)] at hp
    obtain ⟨k, hk, _, _, hpk⟩ := hp
    refine ⟨k, _, _, hk, stateAfter_eq c wX x cTw hW hO hlen k,
      iterationAt_eq c wX x cTw hW hO hlen k, hpk, ?_⟩
    rw [hpk, Function.iterate_succ_apply']
    rfl

/-- Witness for C11 on the one-point scene. -/
theorem one_iteration_before_return_witness :
    WorldOk sceneWorld ∧ ObservedOk sceneObserved ∧ sceneObserved.length = sceneWorld.length ∧
    pose_gauss_newton frozenCollaborators 0 sceneWorld sceneObserved
      vpHomogeneousMatrix.identity = Outcome.running ∧
    (∃ it, iterationAt frozenCollaborators sceneWorld sceneObserved
        vpHomogeneousMatrix.identity 0 = some it ∧
      it.next.cTw_ = ((frozenCollaborators.direct it.dq).inverse).mul
        vpHomogeneousMatrix.identity ∧
      pose_gauss_newton frozenCollaborators 1 sceneWorld sceneObserved
          vpHomogeneousMatrix.identity =
        if loopCond it.next.residual it.residual_prev then Outcome.running
        else Outcome.returned it.next.cTw_) ∧
    ∀ fuel p, pose_gauss_newton frozenCollaborators fuel sceneWorld sceneObserved
        vpHomogeneousMatrix.identity = Outcome.returned p →
      ∃ k s it, k < fuel ∧
        stateAfter frozenCollaborators sceneWorld sceneObserved
          vpHomogeneousMatrix.identity k = some s ∧
        iterationAt frozenCollaborators sceneWorld sceneObserved
          vpHomogeneousMatrix.identity k = some it ∧
        p = it.next.cTw_ ∧ p = ((frozenCollaborators.direct it.dq).inverse).mul s.cTw_ :=
  ⟨sceneWorld_ok, sceneObserved_ok, rfl,
    one_iteration_before_return frozenCollaborators sceneWorld sceneObserved
      vpHomogeneousMatrix.identity sceneWorld_ok sceneObserved_ok rfl⟩

/-! ## Rigid poses -/

theorem isRigid_mul (A B : vpHomogeneousMatrix) (hA : IsRigid A) (hB : IsRigid B) :
    IsRigid (A.mul B) := by
  unfold IsRigid at hA hB ⊢
  show (A.R * B.R).transpose * (A.R * B.R) = 1
  rw [Matrix.transpose_mul, Matrix.mul_assoc, ← Matrix.mul_assoc A.R.transpose, hA,
    Matrix.one_mul, hB]

theorem isRigid_inverse (A : vpHomogeneousMatrix) (hA : IsRigid A) : IsRigid A.inverse := by
  unfold IsRigid at hA ⊢
  show A.R.transpose.transpose * A.R.transpose = 1
  rw [Matrix.transpose_transpose]
  exact (Matrix.mul_eq_one_comm).mp hA

theorem toMatrix_bottom (M : vpHomogeneousMatrix) : M.toMatrix 3 = ![0, 0, 0, 1] := by
  ext j
  fin_cases j <;> rfl

theorem isRigid_iterate (c : Collaborators) (wX : List vpColVector) (xn : vpColVector)
    (hexp : ∀ v : vpColVector, IsRigid (c.direct v)) (k : Nat) :
    ∀ P : vpHomogeneousMatrix, IsRigid P → IsRigid ((specStep c wX xn)^[k] P) := by
  induction k with
  | zero => intro P hP; exact hP
  | succ k ih =>
    intro P hP
    rw [Function.iterate_succ_apply]
    exact ih _ (isRigid_mul _ _ (isRigid_inverse _ (hexp _)) hP)

/-- C12: rigid-transform invariant.  If the initial pose has an orthonormal
rotation block and the exponential map returns a rigid transform for every
twist, then the pose held after every iteration of `pose_gauss_newton`, and
the pose it returns, has an orthonormal rotation block and the bottom row
`(0, 0, 0, 1)`. -/
theorem rigid_invariant (c : Collaborators) (wX x : List vpColVector)
    (cTw : vpHomogeneousMatrix) (hW : WorldOk wX) (hO : ObservedOk x)
    (hlen : x.length = wX.length) (hcTw : IsRigid cTw)
    (hexp : ∀ v : vpColVector, IsRigid (c.direct v)) :
    (∀ k, ∃ s, stateAfter c wX x cTw k = some s ∧
      s.cTw_.R.transpose * s.cTw_.R = 1 ∧ s.cTw_.R * s.cTw_.R.transpose = 1 ∧
      s.cTw_.toMatrix 3 = ![0, 0, 0, 1]) ∧
    ∀ fuel p, pose_gauss_newton c fuel wX x cTw = Outcome.returned p →
      p.R.transpose * p.R = 1 ∧ p.R * p.R.transpose = 1 ∧ p.toMatrix 3 = ![0, 0, 0, 1] := by
  have hseq : ∀ k, IsRigid (((specNext c wX (specObservation x))^[k]
      (initState wX.length cTw)).cTw_) := by
    intro k
    rw [iterate_pose]
    exact isRigid_iterate c wX _ hexp k cTw hcTw
  constructor
  · intro k
    exact ⟨_, stateAfter_eq c wX x cTw hW hO hlen k, hseq k,
      (Matrix.mul_eq_one_comm).mp (hseq k), toMatrix_bottom _⟩
  · intro fuel p hp
    rw [pose_gauss_newton_eq c fuel wX x cTw hO hlen,
      doWhile_returned_iff c wX _ hW p fuel _ (initState_shaped _ _)] at hp
    obtain ⟨k, _, _, _, hpk⟩ := hp
    rw [hpk]
    exact ⟨hseq (k + 1), (Matrix.mul_eq_one_comm).mp (hseq (k + 1)), toMatrix_bottom _⟩

/-- Witness for C12 on the one-point scene, from the identity pose. -/
theorem rigid_invariant_witness :
    WorldOk sceneWorld ∧ ObservedOk sceneObserved ∧ sceneObserved.length = sceneWorld.length ∧
    IsRigid vpHomogeneousMatrix.identity ∧
    (∀ v : vpColVector, IsRigid (frozenCollaborators.direct v)) ∧
    (∀ k, ∃ s, stateAfter frozenCollaborators sceneWorld sceneObserved
        vpHomogeneousMatrix.identity k = some s ∧
      s.cTw_.R.transpose * s.cTw_.R = 1 ∧ s.cTw_.R * s.cTw_.R.transpose = 1 ∧
      s.cTw_.toMatrix 3 = ![0, 0, 0, 1]) ∧
    ∀ fuel p, pose_gauss_newton frozenCollaborators fuel sceneWorld sceneObserved
        vpHomogeneousMatrix.identity = Outcome.returned p →
      p.R.transpose * p.R = 1 ∧ p.R * p.R.transpose = 1 ∧ p.toMatrix 3 = ![0, 0, 0, 1] :=
  have h1 : IsRigid vpHomogeneousMatrix.identity := by
    simp [IsRigid, vpHomogeneousMatrix.identity]
  have h2 : ∀ v : vpColVector, IsRigid (frozenCollaborators.direct v) := fun _ => h1
  ⟨sceneWorld_ok, sceneObserved_ok, rfl, h1, h2,
    rigid_invariant frozenCollaborators sceneWorld sceneObserved vpHomogeneousMatrix.identity
      sceneWorld_ok sceneObserved_ok rfl h1 h2⟩

/-- C13: in every iteration, for `N` world points of any configuration, the
residual vector has exactly `2N` entries and the Jacobian is exactly `2N × 6`,
and every entry of both is assigned in that iteration: started from the same
pose on buffers of the allocated shape with any other content, the pass
computes the same Jacobian, projections and residual vector. -/
theorem full_shape_every_iteration (c : Collaborators) (wX x : List vpColVector)
    (cTw : vpHomogeneousMatrix) (hW : WorldOk wX) (hO : ObservedOk x)
    (hlen : x.length = wX.length) (k : Nat) :
    ∃ xn s it, marshalLoop x 0 (vpColVector.zeros (wX.length * 2)) = some xn ∧
      stateAfter c wX x cTw k = some s ∧ iterationAt c wX x cTw k = some it ∧
      it.e_q.length = 2 * wX.length ∧
      it.next.xq.length = 2 * wX.length ∧
      it.next.J.length = 2 * wX.length ∧ (∀ row ∈ it.next.J, row.length = 6) ∧
      ∀ (J0 : vpMatrix) (xq0 : vpColVector),
        J0.length = 2 * wX.length → (∀ row ∈ J0, row.length = 6) →
        xq0.length = 2 * wX.length →
        loopBody c wX xn ⟨J0, xq0, s.cTw_, s.residual⟩ = some it := by
  refine ⟨_, _, _, marshalLoop_exact x wX.length hO hlen, stateAfter_eq c wX x cTw hW hO hlen k,
    iterationAt_eq c wX x cTw hW hO hlen k, ?_, ?_, ?_, ?_, ?_⟩
  · simp only [specResidual, vpColVector.sub, List.length_zipWith, specProjection_length,
      specObservation_length, hlen]
    omega
  · rw [Function.iterate_succ_apply']
    exact specProjection_length _ _
  · rw [Function.iterate_succ_apply']
    exact specJacobian_length _ _
  · rw [Function.iterate_succ_apply']
    exact specJacobian_rows _ _
  · intro J0 xq0 hJ hrows hxq
    rw [loopBody_eq c wX _ _ hW ⟨hJ, hrows, hxq⟩, Function.iterate_succ_apply']
    rfl

/-- Witness for C13: the three-point scene, second iteration. -/
theorem full_shape_every_iteration_witness :
    WorldOk triWorld ∧ ObservedOk triObserved ∧ triObserved.length = triWorld.length ∧
    ∃ xn s it, marshalLoop triObserved 0 (vpColVector.zeros (triWorld.length * 2)) = some xn ∧
      stateAfter frozenCollaborators triWorld triObserved vpHomogeneousMatrix.identity 1
        = some s ∧
      iterationAt frozenCollaborators triWorld triObserved vpHomogeneousMatrix.identity 1
        = some it ∧
      it.e_q.length = 2 * triWorld.length ∧
      it.next.xq.length = 2 * triWorld.length ∧
      it.next.J.length = 2 * triWorld.length ∧ (∀ row ∈ it.next.J, row.length = 6) ∧
      ∀ (J0 : vpMatrix) (xq0 : vpColVector),
        J0.length = 2 * triWorld.length → (∀ row ∈ J0, row.length = 6) →
        xq0.length = 2 * triWorld.length →
        loopBody frozenCollaborators triWorld xn ⟨J0, xq0, s.cTw_, s.residual⟩ = some it :=
  have h := exactObservations_spec _ _ _ triScene_exact
  ⟨h.1, h.2.1, h.2.2.1,
    full_shape_every_iteration frozenCollaborators triWorld triObserved
      vpHomogeneousMatrix.identity h.1 h.2.1 h.2.2.1 1⟩

/-! ## The interaction matrix -/

theorem specRowX_dot (X Y Z vx vy vz ox oy oz : ℚ) (hZ : Z ≠ 0) :
    dotProduct (specRowX X Y Z) [vx, vy, vz, ox, oy, oz] =
      ((-vx - (oy * Z - oz * Y)) * Z - X * (-vz - (ox * Y - oy * X))) / Z ^ 2 := by
  simp only [dotProduct, specRowX, List.zipWith_cons_cons, List.zipWith_nil_right,
    List.sum_cons, List.sum_nil]
  field_simp
  ring

theorem specRowY_dot (X Y Z vx vy vz ox oy oz : ℚ) (hZ : Z ≠ 0) :
    dotProduct (specRowY X Y Z) [vx, vy, vz, ox, oy, oz] =
      ((-vy - (oz * X - ox * Z)) * Z - Y * (-vz - (ox * Y - oy * X))) / Z ^ 2 := by
  simp only [dotProduct, specRowY, List.zipWith_cons_cons, List.zipWith_nil_right,
    List.sum_cons, List.sum_nil]
  field_simp
  ring

/-- C15: the two Jacobian rows written by `pose_gauss_newton` for a point of
camera-frame coordinates `(X, Y, Z)`, `Z ≠ 0`, are the interaction matrix of
the perspective projection: for every twist `(v, ω)`, with `(Ẋ, Ẏ, Ż) = -v -
ω × (X, Y, Z)`, the scalar product of the row for `x` with `(v, ω)` is
`(Ẋ·Z - X·Ż)/Z²` and that of the row for `y` is `(Ẏ·Z - Y·Ż)/Z²`. -/
theorem interaction_matrix_rows (c : Collaborators) (wX x : List vpColVector)
    (cTw : vpHomogeneousMatrix) (hW : WorldOk wX) (hO : ObservedOk x)
    (hlen : x.length = wX.length) (k : Nat) :
    ∃ s it, stateAfter c wX x cTw k = some s ∧ iterationAt c wX x cTw k = some it ∧
      (k = 0 → s.cTw_ = cTw) ∧
      ∀ (i : Nat) (w : vpColVector) (X Y Z W : ℚ), wX[i]? = some w →
        s.cTw_.mulColVector w = some [X, Y, Z, W] → Z ≠ 0 →
        ∃ rowx rowy, it.next.J[2 * i]? = some rowx ∧ it.next.J[2 * i + 1]? = some rowy ∧
          ∀ vx vy vz ox oy oz : ℚ,
            dotProduct rowx [vx, vy, vz, ox, oy, oz] =
              ((-vx - (oy * Z - oz * Y)) * Z - X * (-vz - (ox * Y - oy * X))) / Z ^ 2 ∧
            dotProduct rowy [vx, vy, vz, ox, oy, oz] =
              ((-vy - (oz * X - ox * Z)) * Z - Y * (-vz - (ox * Y - oy * X))) / Z ^ 2 := by
  refine ⟨_, _, stateAfter_eq c wX x cTw hW hO hlen k, iterationAt_eq c wX x cTw hW hO hlen k,
    ?_, ?_⟩
  · intro hk
    subst hk
    rfl
  · intro i w X Y Z W hw hcX hZ
    have h := specJacobian_getElem _ wX i w X Y Z W hw hcX
    refine ⟨specRowX X Y Z, specRowY X Y Z, ?_, ?_, ?_⟩
    · rw [Function.iterate_succ_apply']
      exact h.1
    · rw [Function.iterate_succ_apply']
      exact h.2
    · intro vx vy vz ox oy oz
      exact ⟨specRowX_dot X Y Z vx vy vz ox oy oz hZ, specRowY_dot X Y Z vx vy vz ox oy oz hZ⟩

/-- Witness for C15 on the one-point scene. -/
theorem interaction_matrix_rows_witness :
    WorldOk sceneWorld ∧ ObservedOk sceneObserved ∧ sceneObserved.length = sceneWorld.length ∧
    ∃ s it, stateAfter frozenCollaborators sceneWorld sceneObserved
        vpHomogeneousMatrix.identity 0 = some s ∧
      iterationAt frozenCollaborators sceneWorld sceneObserved
        vpHomogeneousMatrix.identity 0 = some it ∧
      (0 = 0 → s.cTw_ = vpHomogeneousMatrix.identity) ∧
      ∀ (i : Nat) (w : vpColVector) (X Y Z W : ℚ), sceneWorld[i]? = some w →
        s.cTw_.mulColVector w = some [X, Y, Z, W] → Z ≠ 0 →
        ∃ rowx rowy, it.next.J[2 * i]? = some rowx ∧ it.next.J[2 * i + 1]? = some rowy ∧
          ∀ vx vy vz ox oy oz : ℚ,
            dotProduct rowx [vx, vy, vz, ox, oy, oz] =
              ((-vx - (oy * Z - oz * Y)) * Z - X * (-vz - (ox * Y - oy * X))) / Z ^ 2 ∧
            dotProduct rowy [vx, vy, vz, ox, oy, oz] =
              ((-vy - (oz * X - ox * Z)) * Z - Y * (-vz - (ox * Y - oy * X))) / Z ^ 2 :=
  ⟨sceneWorld_ok, sceneObserved_ok, rfl,
    interaction_matrix_rows frozenCollaborators sceneWorld sceneObserved
      vpHomogeneousMatrix.identity sceneWorld_ok sceneObserved_ok rfl 0⟩

/-! ## Return at a solution -/

theorem specStep_exact (c : Collaborators) (wX x : List vpColVector) (P : vpHomogeneousMatrix)
    (hpinv : ∀ J : vpMatrix, (∀ row ∈ J, row.length = 6) →
      vpMatrix.mulVec (c.pseudoInverse J) (List.replicate J.length 0) = List.replicate 6 0)
    (hexp : c.direct (List.replicate 6 0) = vpHomogeneousMatrix.identity)
    (hfix : ExactObservations P wX x) :
    specStep c wX (specObservation x) P = P := by
  obtain ⟨_, _, hlen, hproj⟩ := exactObservations_spec P wX x hfix
  have he : specResidual P wX (specObservation x) = List.replicate (2 * wX.length) 0 := by
    rw [specResidual, hproj, sub_self_zeros, specObservation_length, hlen]
  have hJ : (specJacobian P wX).length = 2 * wX.length := specJacobian_length P wX
  have hd : specTwist c wX (specObservation x) P = List.replicate 6 0 := by
    rw [specTwist, he, ← hJ, hpinv _ (specJacobian_rows P wX)]
    simp
  rw [specStep, hd, hexp, identity_inverse, identity_mul]

/-- C16: starting at a solution.  When every observation is the exact
projection of its world point through `P` (all depths non-zero), and given
`pinv(J) · 0 = 0` and `exp(0) = identity`, `pose_gauss_newton` called with the
initial pose `P` returns after exactly one iteration, and returns `P`: the
norm of the first iteration is 0 and the previous norm it is compared with
is the initial value 0. -/
theorem start_at_solution (c : Collaborators) (wX x : List vpColVector)
    (P : vpHomogeneousMatrix)
    (hpinv : ∀ J : vpMatrix, (∀ row ∈ J, row.length = 6) →
      vpMatrix.mulVec (c.pseudoInverse J) (List.replicate J.length 0) = List.replicate 6 0)
    (hexp : c.direct (List.replicate 6 0) = vpHomogeneousMatrix.identity)
    (hfix : ExactObservations P wX x) :
    pose_gauss_newton c 0 wX x P = Outcome.running ∧
    (∀ fuel, pose_gauss_newton c (fuel + 1) wX x P = Outcome.returned P) ∧
    ∃ it, iterationAt c wX x P 0 = some it ∧ it.next.residual = 0 ∧ it.residual_prev = 0 ∧
      it.next.cTw_ = P := by
  obtain ⟨hW, hO, hlen, _⟩ := exactObservations_spec P wX x hfix
  have hstep := specStep_exact c wX x P hpinv hexp hfix
  have hnorm := specNorm_exact P wX x hfix
  refine ⟨?_, ?_, ?_⟩
  · rw [pose_gauss_newton_eq c 0 wX x P hO hlen]
    rfl
  · intro fuel
    rw [pose_gauss_newton_eq c (fuel + 1) wX x P hO hlen,
      doWhile_succ c wX _ _ hW (initState_shaped _ _) fuel]
    have h0 : (specNext c wX (specObservation x) (initState wX.length P)).residual = 0 := hnorm
    have h1 : (initState wX.length P).residual = 0 := rfl
    have h2 : (specNext c wX (specObservation x) (initState wX.length P)).cTw_ = P := hstep
    rw [h0, h1, loopCond_self, h2]
    rfl
  · exact ⟨_, iterationAt_eq c wX x P hW hO hlen 0, hnorm, rfl, hstep⟩

/-- Witness for C16: the three-point scene seen from the identity pose. -/
theorem start_at_solution_witness :
    (∀ J : vpMatrix, (∀ row ∈ J, row.length = 6) →
      vpMatrix.mulVec (frozenCollaborators.pseudoInverse J)
        (List.replicate J.length 0) = List.replicate 6 0) ∧
    frozenCollaborators.direct (List.replicate 6 0) = vpHomogeneousMatrix.identity ∧
    ExactObservations vpHomogeneousMatrix.identity triWorld triObserved ∧
    pose_gauss_newton frozenCollaborators 0 triWorld triObserved vpHomogeneousMatrix.identity
      = Outcome.running ∧
    (∀ fuel, pose_gauss_newton frozenCollaborators (fuel + 1) triWorld triObserved
      vpHomogeneousMatrix.identity = Outcome.returned vpHomogeneousMatrix.identity) ∧
    ∃ it, iterationAt frozenCollaborators triWorld triObserved vpHomogeneousMatrix.identity 0
        = some it ∧ it.next.residual = 0 ∧ it.residual_prev = 0 ∧
      it.next.cTw_ = vpHomogeneousMatrix.identity :=
  have h1 : ∀ J : vpMatrix, (∀ row ∈ J, row.length = 6) →
      vpMatrix.mulVec (frozenCollaborators.pseudoInverse J)
        (List.replicate J.length 0) = List.replicate 6 0 := by
    intro J _
    simp [frozenCollaborators, vpMatrix.mulVec, dotProduct]
  ⟨h1, rfl, triScene_exact,
    start_at_solution frozenCollaborators triWorld triObserved vpHomogeneousMatrix.identity
      h1 rfl triScene_exact⟩

/-! ## Index safety of the marshaling loop -/

theorem mem_marshalWrites (M j : Nat) : j ∈ marshalWrites M ↔ j < 2 * M := by
  induction M with
  | zero => simp [marshalWrites]
  | succ M ih =>
    simp only [marshalWrites, List.mem_append, ih, List.mem_cons, List.mem_singleton,
      List.not_mem_nil, or_false]
    omega

theorem marshalLoop_overflow (x : List vpColVector) :
    ∀ (i n : Nat) (pre todo : vpColVector),
      ObservedOk x → pre.length = i * 2 → todo.length = 2 * n → n < x.length →
      marshalLoop x i (pre ++ todo) = none := by
  induction x with
  | nil =>
    intro i n pre todo _ _ _ hn
    simp at hn
  | cons xi rest ih =>
    intro i n pre todo hO hpre hlen hn
    have hxi : 2 ≤ xi.length := hO xi (List.mem_cons_self _ _)
    have hrest : ObservedOk rest := fun v hv => hO v (List.mem_cons_of_mem _ hv)
    match xi, hxi with
    | a :: b :: tl, _ =>
      cases n with
      | zero =>
        have ht : todo = [] := List.length_eq_zero.mp (by simpa using hlen)
        subst ht
        have hw : vpColVector.writeAt (pre ++ []) (i * 2) a = none := by
          simp [vpColVector.writeAt, hpre]
        rw [marshalLoop_cons, hw]
        rfl
      | succ n =>
        match todo, hlen with
        | t0 :: t1 :: todo1, hlen =>
          have hl : todo1.length = 2 * n := by
            simp only [List.length_cons] at hlen
            omega
          have h1 : (pre ++ [a]).length = i * 2 + 1 := by
            rw [List.length_append, hpre]; rfl
          have h2 : (pre ++ [a, b]).length = (i + 1) * 2 := by
            rw [List.length_append, hpre]; simp; omega
          have e1 : pre ++ a :: t1 :: todo1 = (pre ++ [a]) ++ t1 :: todo1 := by
            rw [List.append_assoc]; rfl
          have e2 : (pre ++ [a]) ++ b :: todo1 = (pre ++ [a, b]) ++ todo1 := by
            simp
          have hn2 : n < rest.length := by
            simp only [List.length_cons] at hn
            omega
          rw [marshalLoop_cons, vecWrite_append pre (t1 :: todo1) t0 a (i * 2) hpre,
            Option.some_bind, e1, vecWrite_append (pre ++ [a]) todo1 t1 b (i * 2 + 1) h1,
            Option.some_bind, e2]
          exact ih (i + 1) n (pre ++ [a, b]) todo1 hrest h2 hl hn2

theorem marshalLoop_none (x : List vpColVector) (npoints : Nat) (hO : ObservedOk x)
    (h : npoints < x.length) :
    marshalLoop x 0 (vpColVector.zeros (npoints * 2)) = none := by
  have := marshalLoop_overflow x 0 npoints [] (vpColVector.zeros (npoints * 2)) hO rfl
    (by simp [vpColVector.zeros]; omega) h
  simpa using this

/-- C18: index safety under length mismatch, for observed vectors of at
least two entries.  With `N` world points and `M` observed points, all writes
of the marshaling loop into `xn` (of length `2N`) are in range exactly when
`M ≤ N`; when `M ≤ N` the entries of `xn` past the observations stay `0`;
when `M > N` the loop writes index `2N`, outside the buffer, and the call
stops on that fault.  With `M = N` and world vectors of four entries every
pass of the loop body runs through and the call never stops on a fault. -/
theorem marshal_index_safety (wX x : List vpColVector) (hO : ObservedOk x) :
    ((∀ j ∈ marshalWrites x.length, j < (vpColVector.zeros (wX.length * 2)).length) ↔
      x.length ≤ wX.length) ∧
    ((marshalLoop x 0 (vpColVector.zeros (wX.length * 2))).isSome = true ↔
      x.length ≤ wX.length) ∧
    (x.length ≤ wX.length →
      marshalLoop x 0 (vpColVector.zeros (wX.length * 2)) =
        some (specObservation x ++ List.replicate (2 * (wX.length - x.length)) 0)) ∧
    (wX.length < x.length →
      2 * wX.length ∈ marshalWrites x.length ∧
      ¬ 2 * wX.length < (vpColVector.zeros (wX.length * 2)).length ∧
      ∀ (c : Collaborators) (fuel : Nat) (cTw : vpHomogeneousMatrix),
        pose_gauss_newton c fuel wX x cTw = Outcome.fault) ∧
    (x.length = wX.length → WorldOk wX →
      ∀ (c : Collaborators) (cTw : vpHomogeneousMatrix),
        (∀ k, ∃ it, iterationAt c wX x cTw k = some it) ∧
        ∀ fuel, pose_gauss_newton c fuel wX x cTw ≠ Outcome.fault) := by
  have hz : (vpColVector.zeros (wX.length * 2)).length = 2 * wX.length := by
    simp [vpColVector.zeros]; omega
  refine ⟨?_, ?_, ?_, ?_, ?_⟩
  · rw [hz]
    constructor
    · intro h
      by_contra hcon
      have := h (2 * wX.length) ((mem_marshalWrites _ _).mpr (by omega))
      omega
    · intro h j hj
      have := (mem_marshalWrites _ _).mp hj
      omega
  · constructor
    · intro h
      by_contra hcon
      rw [marshalLoop_none x wX.length hO (by omega)] at h
      cases h
    · intro h
      rw [marshalLoop_zeros x wX.length hO h]
      rfl
  · intro h
    exact marshalLoop_zeros x wX.length hO h
  · intro h
    refine ⟨(mem_marshalWrites _ _).mpr (by omega), by rw [hz]; omega, ?_⟩
    intro c fuel cTw
    unfold pose_gauss_newton
    simp only [marshalLoop_none x wX.length hO h]
  · intro hlen hW c cTw
    exact ⟨fun k => ⟨_, iterationAt_eq c wX x cTw hW hO hlen k⟩,
      fun fuel => pose_gauss_newton_ne_fault c wX x cTw hW hO hlen fuel⟩

/-- Witness for C18: the one-point scene with a second observation added. -/
theorem marshal_index_safety_witness :
    ObservedOk (sceneObserved ++ [[0, 0, 1]]) ∧
    2 * sceneWorld.length ∈ marshalWrites (sceneObserved ++ [[0, 0, 1]]).length ∧
    pose_gauss_newton frozenCollaborators 5 sceneWorld (sceneObserved ++ [[0, 0, 1]])
      vpHomogeneousMatrix.identity = Outcome.fault :=
  have hO : ObservedOk (sceneObserved ++ [[0, 0, 1]]) := by
    intro xi hxi
    simp only [sceneObserved, List.cons_append, List.nil_append, List.mem_cons,
      List.mem_singleton, List.not_mem_nil, or_false] at hxi
    rcases hxi with h | h <;> rw [h] <;> simp
  have h := (marshal_index_safety sceneWorld (sceneObserved ++ [[0, 0, 1]]) hO).2.2.2.1
    (by decide)
  ⟨hO, h.1, h.2.2 frozenCollaborators 5 vpHomogeneousMatrix.identity⟩

/-! ## Norms across iterations -/

theorem depthPose_mulColVector (Z a b : ℚ) :
    (depthPose Z).mulColVector [a, b, 0, 1] = some [a, b, Z, 1] := by
  simp [vpHomogeneousMatrix.mulColVector, depthPose, Matrix.one_apply]

theorem cameraPoint_depthPose (Z a b : ℚ) :
    cameraPoint (depthPose Z) [a, b, 0, 1] = (a, b, Z) :=
  cameraPoint_eq _ _ _ _ _ _ (depthPose_mulColVector Z a b)

theorem specJacobian_square (Z : ℚ) :
    specJacobian (depthPose Z) squareWorld = squareJacobian Z := by
  simp only [squareWorld, specJacobian, cameraPoint_depthPose, squareJacobian]

theorem specProjection_square (Z : ℚ) :
    specProjection (depthPose Z) squareWorld =
      [1 / Z, 1 / Z, 1 / Z, -1 / Z, -1 / Z, 1 / Z, -1 / Z, -1 / Z] := by
  simp only [squareWorld, specProjection, cameraPoint_depthPose]

theorem specObservation_square :
    specObservation squareObserved = [1, 1, 1, -1, -1, 1, -1, -1] := by
  simp [squareObserved, specObservation]

theorem squarePinv_depth (Z : ℚ) :
    -1 / ((squareJacobian Z).headD []).headD 0 = Z := by
  simp only [squareJacobian, specRowX, List.headD_cons]
  field_simp

theorem squarePinv_left_inverse (Z : ℚ) (hZ : Z ≠ 0) (a1 a2 a3 a4 a5 a6 : ℚ) :
    vpMatrix.mulVec (squarePinv (squareJacobian Z))
        (vpMatrix.mulVec (squareJacobian Z) [a1, a2, a3, a4, a5, a6]) =
      [a1, a2, a3, a4, a5, a6] := by
  have hd := squarePinv_depth Z
  have h : Z * Z⁻¹ = 1 := mul_inv_cancel₀ hZ
  simp only [squarePinv, hd]
  simp only [squareJacobian, specRowX, specRowY, vpMatrix.mulVec, dotProduct, List.map_cons,
    List.map_nil, List.zipWith_cons_cons, List.zipWith_nil_right, List.sum_cons, List.sum_nil]
  refine congrArg₂ List.cons ?_ (congrArg₂ List.cons ?_ (congrArg₂ List.cons ?_
    (congrArg₂ List.cons ?_ (congrArg₂ List.cons ?_ (congrArg₂ List.cons ?_ rfl)))))
  · linear_combination (a1 - Z * a5 - Z ^ 2 * Z⁻¹ * a5) * h
  · linear_combination (a2 + Z * a4 + Z ^ 2 * Z⁻¹ * a4) * h
  · linear_combination (a3 + Z * Z⁻¹ * a3) * h
  · linear_combination (a4 + Z * Z⁻¹ * a4) * h
  · linear_combination (a5 + Z * Z⁻¹ * a5) * h
  · linear_combination a6 * h

theorem squarePinv_symmetric (Z : ℚ) (hZ : Z ≠ 0)
    (a1 a2 a3 a4 a5 a6 a7 a8 b1 b2 b3 b4 b5 b6 b7 b8 : ℚ) :
    dotProduct [a1, a2, a3, a4, a5, a6, a7, a8]
        (vpMatrix.mulVec (squareJacobian Z) (vpMatrix.mulVec (squarePinv (squareJacobian Z))
          [b1, b2, b3, b4, b5, b6, b7, b8])) =
      dotProduct (vpMatrix.mulVec (squareJacobian Z)
        (vpMatrix.mulVec (squarePinv (squareJacobian Z)) [a1, a2, a3, a4, a5, a6, a7, a8]))
        [b1, b2, b3, b4, b5, b6, b7, b8] := by
  have hd := squarePinv_depth Z
  have h : Z * Z⁻¹ = 1 := mul_inv_cancel₀ hZ
  simp only [squarePinv, hd]
  simp only [squareJacobian, specRowX, specRowY, vpMatrix.mulVec, dotProduct, List.map_cons,
    List.map_nil, List.zipWith_cons_cons, List.zipWith_nil_right, List.sum_cons, List.sum_nil]
  linear_combination
    ((-1 / 2) * Z * Z⁻¹ * a8 * b5 + (-1 / 2) * Z * Z⁻¹ * a8 * b3 +
    (-1 / 2) * Z * Z⁻¹ * a7 * b6 + (-1 / 2) * Z * Z⁻¹ * a7 * b4 + (1 / 2) * Z * Z⁻¹ * a6 * b7 +
    (1 / 2) * Z * Z⁻¹ * a6 * b1 + (1 / 2) * Z * Z⁻¹ * a5 * b8 + (1 / 2) * Z * Z⁻¹ * a5 * b2 +
    (1 / 2) * Z * Z⁻¹ * a4 * b7 + (1 / 2) * Z * Z⁻¹ * a4 * b1 + (1 / 2) * Z * Z⁻¹ * a3 * b8 +
    (1 / 2) * Z * Z⁻¹ * a3 * b2 + (-1 / 2) * Z * Z⁻¹ * a2 * b5 + (-1 / 2) * Z * Z⁻¹ * a2 * b3 +
    (-1 / 2) * Z * Z⁻¹ * a1 * b6 + (-1 / 2) * Z * Z⁻¹ * a1 * b4 + (1 / 2) * Z ^ 2 * a8 * b5 +
    (1 / 2) * Z ^ 2 * a8 * b3 + (1 / 2) * Z ^ 2 * a7 * b6 + (1 / 2) * Z ^ 2 * a7 * b4 +
    (-1 / 2) * Z ^ 2 * a6 * b7 + (-1 / 2) * Z ^ 2 * a6 * b1 + (-1 / 2) * Z ^ 2 * a5 * b8 +
    (-1 / 2) * Z ^ 2 * a5 * b2 + (-1 / 2) * Z ^ 2 * a4 * b7 + (-1 / 2) * Z ^ 2 * a4 * b1 +
    (-1 / 2) * Z ^ 2 * a3 * b8 + (-1 / 2) * Z ^ 2 * a3 * b2 + (1 / 2) * Z ^ 2 * a2 * b5 +
    (1 / 2) * Z ^ 2 * a2 * b3 + (1 / 2) * Z ^ 2 * a1 * b6 + (1 / 2) * Z ^ 2 * a1 * b4) * h

theorem specResidual_square (Z : ℚ) (hZ : Z ≠ 0) :
    specResidual (depthPose Z) squareWorld (specObservation squareObserved) =
      vpMatrix.mulVec (squareJacobian Z) [0, 0, Z * (1 - Z), 0, 0, 0] := by
  rw [specResidual, specProjection_square, specObservation_square]
  simp only [vpColVector.sub, squareJacobian, specRowX, specRowY, vpMatrix.mulVec, dotProduct,
    List.map_cons, List.map_nil, List.zipWith_cons_cons, List.zipWith_nil_right, List.sum_cons,
    List.sum_nil, List.zipWith_nil_left]
  refine congrArg₂ List.cons ?_ (congrArg₂ List.cons ?_ (congrArg₂ List.cons ?_
    (congrArg₂ List.cons ?_ (congrArg₂ List.cons ?_ (congrArg₂ List.cons ?_
    (congrArg₂ List.cons ?_ (congrArg₂ List.cons ?_ rfl))))))) <;> (field_simp; ring)

theorem specTwist_square (Z : ℚ) (hZ : Z ≠ 0) :
    specTwist squareCollaborators squareWorld (specObservation squareObserved) (depthPose Z) =
      [0, 0, -(1 / 4) * (Z * (1 - Z)), 0, 0, 0] := by
  rw [specTwist, specResidual_square Z hZ, specJacobian_square]
  show List.map _ (vpMatrix.mulVec (squarePinv (squareJacobian Z)) _) = _
  rw [squarePinv_left_inverse Z hZ]
  simp

theorem specStep_square (Z : ℚ) (hZ : Z ≠ 0) :
    specStep squareCollaborators squareWorld (specObservation squareObserved) (depthPose Z) =
      depthPose (nextDepth Z) := by
  rw [specStep, specTwist_square Z hZ]
  show ((squareExp _).inverse).mul (depthPose Z) = depthPose (nextDepth Z)
  simp only [squareExp, vpHomogeneousMatrix.inverse, vpHomogeneousMatrix.mul, depthPose,
    nextDepth, vpHomogeneousMatrix.mk.injEq]
  refine ⟨by simp, ?_⟩
  ext i
  fin_cases i <;> simp
  ring

theorem specNorm_square (Z : ℚ) :
    specNorm squareWorld (specObservation squareObserved) (depthPose Z) = 8 * (1 / Z - 1) ^ 2 := by
  rw [specNorm, specResidual, specProjection_square, specObservation_square]
  simp only [vpColVector.sub, vpColVector.sumSquare, List.map_cons, List.map_nil,
    List.zipWith_cons_cons, List.zipWith_nil_right, List.sum_cons, List.sum_nil]
  ring

theorem depthSeq_bounds (k : Nat) : 0 < depthSeq (k + 1) ∧ depthSeq (k + 1) < 1 := by
  induction k with
  | zero =>
    simp only [depthSeq, nextDepth]
    norm_num
  | succ k ih =>
    obtain ⟨h0, h1⟩ := ih
    have e : depthSeq (k + 1 + 1) = depthSeq (k + 1) * (5 - depthSeq (k + 1)) / 4 := rfl
    rw [e]
    constructor
    · have : 0 < depthSeq (k + 1) * (5 - depthSeq (k + 1)) := mul_pos h0 (by linarith)
      linarith
    · nlinarith [mul_pos (sub_pos.mpr h1) (show (0 : ℚ) < 4 - depthSeq (k + 1) by linarith)]

theorem depthSeq_ne_zero (k : Nat) : depthSeq k ≠ 0 := by
  cases k with
  | zero => simp only [depthSeq]; norm_num
  | succ k => exact ne_of_gt (depthSeq_bounds k).1

theorem square_pose_seq (k : Nat) :
    (specStep squareCollaborators squareWorld (specObservation squareObserved))^[k]
      (depthPose (24 / 5)) = depthPose (depthSeq k) := by
  induction k with
  | zero => rfl
  | succ k ih =>
    rw [Function.iterate_succ_apply', ih, specStep_square _ (depthSeq_ne_zero k)]
    rfl

theorem squareWorld_ok : WorldOk squareWorld := by
  intro w hw
  simp only [squareWorld, List.mem_cons, List.mem_singleton, List.not_mem_nil, or_false] at hw
  rcases hw with h | h | h | h <;> rw [h] <;> rfl

theorem squareObserved_ok : ObservedOk squareObserved := by
  intro w hw
  simp only [squareObserved, List.mem_cons, List.mem_singleton, List.not_mem_nil,
    or_false] at hw
  rcases hw with h | h | h | h <;> rw [h] <;> simp

theorem square_exact : ExactObservations (depthPose 1) squareWorld squareObserved := by
  simp [ExactObservations, ExactPoint, squareWorld, squareObserved,
    vpHomogeneousMatrix.mulColVector, depthPose, Matrix.one_apply]

/-- C14, as stated, fails.  On the square scene observed exactly from
`depthPose 1` and started from `depthPose (24/5)`, with a collaborator that
returns at every iterate the Moore-Penrose pseudo-inverse of the Jacobian (a
left inverse `L` of `J` with `J L` symmetric, so `J` has rank 6) and the exact
exponential of the twist (a translation), the norm of the first iteration is
`361/72`, the norm of the second is `722/9`, and the call is still iterating
after both. -/
theorem norm_increases_on_square :
    ExactObservations (depthPose 1) squareWorld squareObserved ∧
    (∀ k, ∃ s it,
      stateAfter squareCollaborators squareWorld squareObserved (depthPose (24 / 5)) k
        = some s ∧
      iterationAt squareCollaborators squareWorld squareObserved (depthPose (24 / 5)) k
        = some it ∧
      (∀ a1 a2 a3 a4 a5 a6 : ℚ,
        vpMatrix.mulVec (squareCollaborators.pseudoInverse it.next.J)
          (vpMatrix.mulVec it.next.J [a1, a2, a3, a4, a5, a6]) = [a1, a2, a3, a4, a5, a6]) ∧
      (∀ a1 a2 a3 a4 a5 a6 a7 a8 b1 b2 b3 b4 b5 b6 b7 b8 : ℚ,
        dotProduct [a1, a2, a3, a4, a5, a6, a7, a8]
            (vpMatrix.mulVec it.next.J (vpMatrix.mulVec
              (squareCollaborators.pseudoInverse it.next.J)
              [b1, b2, b3, b4, b5, b6, b7, b8])) =
          dotProduct (vpMatrix.mulVec it.next.J (vpMatrix.mulVec
            (squareCollaborators.pseudoInverse it.next.J)
            [a1, a2, a3, a4, a5, a6, a7, a8])) [b1, b2, b3, b4, b5, b6, b7, b8]) ∧
      ∃ v : ℚ, it.dq = [0, 0, v, 0, 0, 0] ∧
        squareCollaborators.direct it.dq = ⟨1, ![0, 0, v]⟩) ∧
    (∃ it0 it1,
      iterationAt squareCollaborators squareWorld squareObserved (depthPose (24 / 5)) 0
        = some it0 ∧
      iterationAt squareCollaborators squareWorld squareObserved (depthPose (24 / 5)) 1
        = some it1 ∧
      it0.next.residual = 361 / 72 ∧ it1.next.residual = 722 / 9 ∧
      it0.next.residual < it1.next.residual) ∧
    pose_gauss_newton squareCollaborators 2 squareWorld squareObserved (depthPose (24 / 5))
      = Outcome.running := by
  have hW := squareWorld_ok
  have hO := squareObserved_ok
  have hlen : squareObserved.length = squareWorld.length := rfl
  have hpose : ∀ k, ((specNext squareCollaborators squareWorld (specObservation squareObserved))^[k]
      (initState squareWorld.length (depthPose (24 / 5)))).cTw_ = depthPose (depthSeq k) := by
    intro k
    rw [iterate_pose]
    exact square_pose_seq k
  have hres : ∀ k, ((specNext squareCollaborators squareWorld
      (specObservation squareObserved))^[k + 1]
      (initState squareWorld.length (depthPose (24 / 5)))).residual =
      8 * (1 / depthSeq k - 1) ^ 2 := by
    intro k
    rw [iterate_residual]
    show specNorm _ _ ((specStep squareCollaborators squareWorld
      (specObservation squareObserved))^[k] (depthPose (24 / 5))) = _
    rw [square_pose_seq, specNorm_square]
  have hd0 : depthSeq 0 = 24 / 5 := rfl
  have hd1 : depthSeq 1 = 6 / 25 := by
    simp only [depthSeq, nextDepth]
    norm_num
  refine ⟨square_exact, ?_, ?_, ?_⟩
  · intro k
    have hJ : ((specNext squareCollaborators squareWorld
        (specObservation squareObserved))^[k + 1]
        (initState squareWorld.length (depthPose (24 / 5)))).J
        = squareJacobian (depthSeq k) := by
      rw [Function.iterate_succ_apply']
      show specJacobian _ squareWorld = _
      rw [hpose k, specJacobian_square]
    refine ⟨_, _, stateAfter_eq _ _ _ _ hW hO hlen k, iterationAt_eq _ _ _ _ hW hO hlen k,
      ?_, ?_, ?_⟩
    · intro a1 a2 a3 a4 a5 a6
      show vpMatrix.mulVec (squarePinv _) _ = _
      rw [hJ]
      exact squarePinv_left_inverse _ (depthSeq_ne_zero k) a1 a2 a3 a4 a5 a6
    · intro a1 a2 a3 a4 a5 a6 a7 a8 b1 b2 b3 b4 b5 b6 b7 b8
      show dotProduct _ (vpMatrix.mulVec _ (vpMatrix.mulVec (squarePinv _) _)) =
        dotProduct (vpMatrix.mulVec _ (vpMatrix.mulVec (squarePinv _) _)) _
      rw [hJ]
      exact squarePinv_symmetric _ (depthSeq_ne_zero k) a1 a2 a3 a4 a5 a6 a7 a8
        b1 b2 b3 b4 b5 b6 b7 b8
    · refine ⟨-(1 / 4) * (depthSeq k * (1 - depthSeq k)), ?_, ?_⟩
      · show specTwist _ _ _ _ = _
        rw [hpose k]
        exact specTwist_square _ (depthSeq_ne_zero k)
      · show squareExp (specTwist _ _ _ _) = _
        rw [hpose k, specTwist_square _ (depthSeq_ne_zero k)]
        rfl
  · refine ⟨_, _, iterationAt_eq _ _ _ _ hW hO hlen 0, iterationAt_eq _ _ _ _ hW hO hlen 1,
      ?_, ?_, ?_⟩
    · rw [hres 0, hd0]
      norm_num
    · rw [hres 1, hd1]
      norm_num
    · rw [hres 0, hres 1, hd0, hd1]
      norm_num
  · rw [pose_gauss_newton_eq _ 2 _ _ _ hO hlen,
      doWhile_running_iff _ _ _ hW 2 _ (initState_shaped _ _)]
    intro j hj
    have hj2 : j = 0 ∨ j = 1 := by omega
    rcases hj2 with h | h
    · subst h
      rw [hres 0, hd0]
      show (8 : ℚ) * (1 / (24 / 5) - 1) ^ 2 ≠ 0
      norm_num
    · subst h
      rw [hres 1, hres 0, hd0, hd1]
      norm_num


theorem sumSquare_nonneg (v : vpColVector) : 0 ≤ vpColVector.sumSquare v := by
  induction v with
  | nil => simp [vpColVector.sumSquare]
  | cons a rest ih =>
    unfold vpColVector.sumSquare at ih ⊢
    rw [List.map_cons, List.sum_cons]
    exact add_nonneg (mul_self_nonneg a) ih

theorem sumSquare_eq_zero (v : vpColVector) (h : vpColVector.sumSquare v = 0) :
    v = List.replicate v.length 0 := by
  induction v with
  | nil => rfl
  | cons a rest ih =>
    have hr := sumSquare_nonneg rest
    unfold vpColVector.sumSquare at h hr ih
    rw [List.map_cons, List.sum_cons] at h
    have ha : a * a = 0 := by
      have := mul_self_nonneg a
      linarith
    have hrest : (List.map (fun a => a * a) rest).sum = 0 := by
      have := mul_self_nonneg a
      linarith
    rw [List.length_cons, List.replicate_succ, ← ih hrest, mul_self_eq_zero.mp ha]

theorem specStep_of_norm_zero (c : Collaborators) (wX : List vpColVector) (xn : vpColVector)
    (P : vpHomogeneousMatrix)
    (hpinv : ∀ J : vpMatrix, (∀ row ∈ J, row.length = 6) →
      vpMatrix.mulVec (c.pseudoInverse J) (List.replicate J.length 0) = List.replicate 6 0)
    (hexp : c.direct (List.replicate 6 0) = vpHomogeneousMatrix.identity)
    (hxn : xn.length = 2 * wX.length)
    (h : specNorm wX xn P = 0) : specStep c wX xn P = P := by
  have he := sumSquare_eq_zero _ h
  have hl : (specResidual P wX xn).length = (specJacobian P wX).length := by
    rw [specJacobian_length]
    simp only [specResidual, vpColVector.sub, List.length_zipWith, specProjection_length, hxn]
    omega
  have hd : specTwist c wX xn P = List.replicate 6 0 := by
    rw [specTwist, he, hl, hpinv _ (specJacobian_rows P wX)]
    simp
  rw [specStep, hd, hexp, identity_inverse, identity_mul]

/-- C14, amended: the norms are sums of squares, hence never negative, and
from a zero norm on the sequence does not increase: given `pinv(J) · 0 = 0`
and `exp(0) = identity`, if the norm of an iteration is 0 then the norm of
the next iteration is 0.  (No more holds in general: the step of gain 0.25 is
applied whatever it does to the norm.) -/
theorem zero_norm_stays_zero (c : Collaborators) (wX x : List vpColVector)
    (cTw : vpHomogeneousMatrix) (hW : WorldOk wX) (hO : ObservedOk x)
    (hlen : x.length = wX.length)
    (hpinv : ∀ J : vpMatrix, (∀ row ∈ J, row.length = 6) →
      vpMatrix.mulVec (c.pseudoInverse J) (List.replicate J.length 0) = List.replicate 6 0)
    (hexp : c.direct (List.replicate 6 0) = vpHomogeneousMatrix.identity) (k : Nat) :
    ∃ it it2, iterationAt c wX x cTw k = some it ∧ iterationAt c wX x cTw (k + 1) = some it2 ∧
      it.next.residual = it.e_q.sumSquare ∧ it2.next.residual = it2.e_q.sumSquare ∧
      0 ≤ it.next.residual ∧
      (it.next.residual = 0 → it2.next.residual = 0 ∧ it2.next.residual ≤ it.next.residual) := by
  refine ⟨_, _, iterationAt_eq c wX x cTw hW hO hlen k,
    iterationAt_eq c wX x cTw hW hO hlen (k + 1), ?_, ?_, ?_, ?_⟩
  · rw [Function.iterate_succ_apply']
    rfl
  · rw [Function.iterate_succ_apply']
    rfl
  · rw [Function.iterate_succ_apply']
    exact sumSquare_nonneg _
  · intro h0
    have hxn : (specObservation x).length = 2 * wX.length := by
      rw [specObservation_length, hlen]
    rw [iterate_residual] at h0
    have hstep := specStep_of_norm_zero c wX _ _ hpinv hexp hxn h0
    have h2 : ((specNext c wX (specObservation x))^[k + 1 + 1]
        (initState wX.length cTw)).residual = 0 := by
      rw [iterate_residual, Function.iterate_succ_apply', hstep]
      exact h0
    have h1 : ((specNext c wX (specObservation x))^[k + 1]
        (initState wX.length cTw)).residual = 0 := by
      rw [iterate_residual]
      exact h0
    show ((specNext c wX (specObservation x))^[k + 1 + 1] (initState wX.length cTw)).residual = 0 ∧
      ((specNext c wX (specObservation x))^[k + 1 + 1] (initState wX.length cTw)).residual ≤
      ((specNext c wX (specObservation x))^[k + 1] (initState wX.length cTw)).residual
    rw [h2, h1]
    exact ⟨rfl, le_refl _⟩

/-- Witness for the amended C14: the three-point scene seen from the identity
pose, where the norm of the first iteration is 0. -/
theorem zero_norm_stays_zero_witness :
    WorldOk triWorld ∧ ObservedOk triObserved ∧ triObserved.length = triWorld.length ∧
    (∀ J : vpMatrix, (∀ row ∈ J, row.length = 6) →
      vpMatrix.mulVec (frozenCollaborators.pseudoInverse J)
        (List.replicate J.length 0) = List.replicate 6 0) ∧
    frozenCollaborators.direct (List.replicate 6 0) = vpHomogeneousMatrix.identity ∧
    ∃ it it2, iterationAt frozenCollaborators triWorld triObserved
        vpHomogeneousMatrix.identity 0 = some it ∧
      iterationAt frozenCollaborators triWorld triObserved
        vpHomogeneousMatrix.identity (0 + 1) = some it2 ∧
      it.next.residual = it.e_q.sumSquare ∧ it2.next.residual = it2.e_q.sumSquare ∧
      0 ≤ it.next.residual ∧
      (it.next.residual = 0 → it2.next.residual = 0 ∧ it2.next.residual ≤ it.next.residual) :=
  have h := exactObservations_spec _ _ _ triScene_exact
  have h1 : ∀ J : vpMatrix, (∀ row ∈ J, row.length = 6) →
      vpMatrix.mulVec (frozenCollaborators.pseudoInverse J)
        (List.replicate J.length 0) = List.replicate 6 0 := by
    intro J _
    simp [frozenCollaborators, vpMatrix.mulVec, dotProduct]
  ⟨h.1, h.2.1, h.2.2.1, h1, rfl,
    zero_norm_stays_zero frozenCollaborators triWorld triObserved vpHomogeneousMatrix.identity
      h.1 h.2.1 h.2.2.1 h1 rfl 0⟩

/-! ## Finite and non-finite values -/

/-- An infinite norm keeps the loop running: on the world point `(1, 2, 0)`
observed at `(0, 0)` from the identity pose the norm of the first iteration
is `+inf`, and the loop condition is true on it. -/
theorem inf_norm_continues :
    firstNormDbl vpHomogeneousMatrix.identity [[1, 2, 0, 1]] [0, 0] = Dbl.inf false ∧
    loopCondDbl (Dbl.inf false) (Dbl.fin 0) = true := by
  have hc : cameraPoint vpHomogeneousMatrix.identity [1, 2, 0, 1] = (1, 2, 0) := by
    simp [cameraPoint, vpHomogeneousMatrix.mulColVector, vpHomogeneousMatrix.identity]
  constructor
  · simp [firstNormDbl, projectionDbl, hc, Dbl.div, residualDbl, Dbl.sub, Dbl.neg,
      Dbl.add, sumSquareDbl, Dbl.mul]
  · rfl

/-! ## The sliding scene -/

/-- C10, amended: the previous norm is no sentinel, it starts as the value 0
of `residual`.  On a well-formed input whose transformed points have a
non-zero depth at the initial pose, the first pass of the loop body runs to
its end and its stopping test compares the first residual norm with 0; when
that norm is 0 the test is a comparison of 0 with 0 and the call returns
after its first iteration. -/
theorem first_test_against_zero (c : Collaborators) (wX x : List vpColVector)
    (cTw : vpHomogeneousMatrix) (hW : WorldOk wX) (hO : ObservedOk x)
    (hlen : x.length = wX.length) (_hD : DepthsOk cTw wX) :
    ∃ s0 it, stateAfter c wX x cTw 0 = some s0 ∧ s0.residual = 0 ∧
      iterationAt c wX x cTw 0 = some it ∧ it.residual_prev = 0 ∧
      it.next.residual = it.e_q.sumSquare ∧
      (it.next.residual = 0 →
        pose_gauss_newton c 0 wX x cTw = Outcome.running ∧
        pose_gauss_newton c 1 wX x cTw = Outcome.returned it.next.cTw_) := by
  refine ⟨_, _, stateAfter_eq c wX x cTw hW hO hlen 0, rfl,
    iterationAt_eq c wX x cTw hW hO hlen 0, rfl, rfl, ?_⟩
  intro h
  have h0 : specNorm wX (specObservation x) cTw = 0 := h
  constructor
  · rw [pose_gauss_newton_eq c 0 wX x cTw hO hlen]
    rfl
  · rw [pose_gauss_newton_one c wX x cTw hW hO hlen, h0, loopCond_self]
    rfl

/-- Witness for the amended C10: the one-point scene, observed exactly from
the identity pose at depth 4. -/
theorem first_test_against_zero_witness :
    WorldOk sceneWorld ∧ ObservedOk sceneObserved ∧ sceneObserved.length = sceneWorld.length ∧
    DepthsOk vpHomogeneousMatrix.identity sceneWorld ∧
    ∃ s0 it, stateAfter shiftCollaborators sceneWorld sceneObserved
        vpHomogeneousMatrix.identity 0 = some s0 ∧ s0.residual = 0 ∧
      iterationAt shiftCollaborators sceneWorld sceneObserved
        vpHomogeneousMatrix.identity 0 = some it ∧ it.residual_prev = 0 ∧
      it.next.residual = 0 ∧
      pose_gauss_newton shiftCollaborators 0 sceneWorld sceneObserved
        vpHomogeneousMatrix.identity = Outcome.running ∧
      pose_gauss_newton shiftCollaborators 1 sceneWorld sceneObserved
        vpHomogeneousMatrix.identity = Outcome.returned it.next.cTw_ := by
  have hD : DepthsOk vpHomogeneousMatrix.identity sceneWorld := by
    intro w hw
    simp only [sceneWorld, List.mem_singleton] at hw
    rw [hw]
    simp [cameraPoint, vpHomogeneousMatrix.mulColVector, vpHomogeneousMatrix.identity]
  obtain ⟨s0, it, h1, h2, h3, h4, _, h6⟩ :=
    first_test_against_zero shiftCollaborators sceneWorld sceneObserved
      vpHomogeneousMatrix.identity sceneWorld_ok sceneObserved_ok rfl hD
  have hit := Option.some.inj (h3.symm.trans
    (iterationAt_eq shiftCollaborators sceneWorld sceneObserved vpHomogeneousMatrix.identity
      sceneWorld_ok sceneObserved_ok rfl 0))
  have hz : it.next.residual = 0 := by
    rw [hit]
    exact specNorm_exact _ _ _ scene_exact
  exact ⟨sceneWorld_ok, sceneObserved_ok, rfl, hD, s0, it, h1, h2, h3, h4, hz, h6 hz⟩

end PoseGaussNewton
